import Mathlib

/-!
Verification of the MIFARE Classic attack engine of `armsrc/mifarecmd.c`
(nonce-distance calibrator, nested-nonce harvester, static-nonce
classifiers, multi-sector key search engine).

The C code is shallowly embedded: machine integers become `Nat` with
explicit `% 2^w` where wrap-around matters, the per-operation loops become
structurally recursive Lean functions over explicit per-round environment
lists, and the external transport/cipher collaborators become parameters
(a PRNG step function, a deterministic tag model).
-/

set_option autoImplicit false

namespace Mifarecmd

/-- Modelled from the spec: the external odd-parity helper `oddparity8`
(the byte's odd-parity bit, i.e. the complement of the XOR of the eight
low bits of the byte). Only the low 8 bits of the argument contribute. -/
def oddparity8 (x : Nat) : Nat :=
  1 ^^^ ((x ^^^ (x >>> 1) ^^^ (x >>> 2) ^^^ (x >>> 3) ^^^
          (x >>> 4) ^^^ (x >>> 5) ^^^ (x >>> 6) ^^^ (x >>> 7)) &&& 1)

/-- Modelled from the spec: the external bit-extraction macro `BIT(x, n)`
("the corresponding keystream bit"), bit `n` of `x`. -/
def BIT (x n : Nat) : Nat := (x >>> n) &&& 1

/-- `valid_nonce` (mifarecmd.c:784-790): returns 1 when, for each of the
three most-significant predicted-nonce bytes, the byte's odd parity equals
the parity-array entry XORed with the odd parity of the matching
encrypted-nonce byte XORed with the matching keystream bit. The parity
array is modelled as a function from index to byte. -/
def valid_nonce (Nt NtEnc Ks1 : Nat) (parity : Nat → Nat) : Nat :=
  if (oddparity8 ((Nt >>> 24) &&& 255) =
        ((parity 0) ^^^ oddparity8 ((NtEnc >>> 24) &&& 255) ^^^ BIT Ks1 16)) ∧
     (oddparity8 ((Nt >>> 16) &&& 255) =
        ((parity 1) ^^^ oddparity8 ((NtEnc >>> 16) &&& 255) ^^^ BIT Ks1 8)) ∧
     (oddparity8 ((Nt >>> 8) &&& 255) =
        ((parity 2) ^^^ oddparity8 ((NtEnc >>> 8) &&& 255) ^^^ BIT Ks1 0))
  then 1 else 0

/-- Pointwise update of a parity array at one index. -/
def updAt (parity : Nat → Nat) (j v : Nat) : Nat → Nat :=
  fun x => if x = j then v else parity x

/-- Flip (XOR with 1) the parity array entry at one index. -/
def flipAt (parity : Nat → Nat) (j : Nat) : Nat → Nat :=
  fun x => if x = j then parity x ^^^ 1 else parity x

theorem xor_one_ne (y : Nat) : y ^^^ 1 ≠ y := by
  intro h
  have h2 : y ^^^ (y ^^^ 1) = y ^^^ y := by rw [h]
  rw [← Nat.xor_assoc, Nat.xor_self] at h2
  simp at h2

theorem xor_one_left_shift (a x y : Nat) :
    (a ^^^ 1) ^^^ x ^^^ y = ((a ^^^ x) ^^^ y) ^^^ 1 := by
  rw [Nat.xor_assoc a 1 x, Nat.xor_comm 1 x, ← Nat.xor_assoc a x 1,
      Nat.xor_assoc (a ^^^ x) 1 y, Nat.xor_comm 1 y, ← Nat.xor_assoc]

theorem forall_lt_three {P : Nat → Prop} :
    (∀ j, j < 3 → P j) ↔ P 0 ∧ P 1 ∧ P 2 := by
  constructor
  · intro h; exact ⟨h 0 (by norm_num), h 1 (by norm_num), h 2 (by norm_num)⟩
  · rintro ⟨h0, h1, h2⟩ j hj
    interval_cases j <;> assumption

/-- C1 (amended): `valid_nonce` accepts a quadruple exactly when, for each
of the THREE most-significant predicted-nonce bytes (parity indices 0..2),
the byte's odd parity equals the parity entry XOR the odd parity of the
matching encrypted-nonce byte XOR the matching keystream bit
(bits 16, 8, 0 of `Ks1`); flipping any one of those three parity entries of
an accepted quadruple makes it return 0; the fourth parity entry
(index 3, least-significant byte) is ignored. -/
theorem valid_nonce_checks_three_bytes :
    (∀ Nt NtEnc Ks1 par,
        valid_nonce Nt NtEnc Ks1 par = 1 ↔
          (∀ j, j < 3 →
            oddparity8 ((Nt >>> (24 - 8 * j)) &&& 255) =
              (par j ^^^ oddparity8 ((NtEnc >>> (24 - 8 * j)) &&& 255) ^^^
                BIT Ks1 (16 - 8 * j)))) ∧
    (∀ Nt NtEnc Ks1 par j, j < 3 → valid_nonce Nt NtEnc Ks1 par = 1 →
        valid_nonce Nt NtEnc Ks1 (flipAt par j) = 0) ∧
    (∀ Nt NtEnc Ks1 par v,
        valid_nonce Nt NtEnc Ks1 (updAt par 3 v) = valid_nonce Nt NtEnc Ks1 par) := by
  refine ⟨?_, ?_, ?_⟩
  · intro Nt NtEnc Ks1 par
    rw [forall_lt_three]
    norm_num
    unfold valid_nonce
    split
    · rename_i h
      simp only [true_iff]
      exact h
    · rename_i h
      simp only [Nat.zero_ne_one, false_iff]
      exact h
  · intro Nt NtEnc Ks1 par j hj hval
    unfold valid_nonce at hval ⊢
    split at hval
    · rename_i h
      rw [if_neg]
      interval_cases j
      · rintro ⟨hc, -, -⟩
        simp only [flipAt] at hc
        norm_num at hc
        rw [xor_one_left_shift, ← h.1] at hc
        exact xor_one_ne _ hc.symm
      · rintro ⟨-, hc, -⟩
        simp only [flipAt] at hc
        norm_num at hc
        rw [xor_one_left_shift, ← h.2.1] at hc
        exact xor_one_ne _ hc.symm
      · rintro ⟨-, -, hc⟩
        simp only [flipAt] at hc
        norm_num at hc
        rw [xor_one_left_shift, ← h.2.2] at hc
        exact xor_one_ne _ hc.symm
    · exact absurd hval (by norm_num)
  · intro Nt NtEnc Ks1 par v
    simp [valid_nonce, updAt]

/-- C1 counterexample: the quadruple `(0, 0, 0, [0,0,0,0])` is accepted by
`valid_nonce`, and flipping the fourth parity bit (index 3) still yields
acceptance — refuting the claim that flipping any single one of the four
parity bits makes it return false. -/
theorem valid_nonce_fourth_parity_bit_ignored :
    valid_nonce 0 0 0 (fun _ => 0) = 1 ∧
    valid_nonce 0 0 0 (flipAt (fun _ => 0) 3) = 1 := by
  constructor <;> decide

/-- C1 witness: the amended theorem applied at a concrete accepted
quadruple with the first parity entry flipped. -/
theorem valid_nonce_checks_three_bytes_witness :
    valid_nonce 0 0 0 (flipAt (fun _ => 0) 0) = 0 :=
  valid_nonce_checks_three_bytes.2.1 0 0 0 (fun _ => 0) 0 (by norm_num) (by decide)

/-! ## Nonce-distance calibrator (`MifareNested`, calibrate branch,
mifarecmd.c:1366-1466).

The PRNG successor step (external cipher primitive `prng_successor`) is a
parameter `prng : Nat → Nat`; `prng_successor prng x n` iterates it `n`
times. Each calibration round's transport results (first nonce `nt1`,
nested nonce `nt2`, the two measured authentication times) form a
`CalRound`; transport-level failures repeat a round in the C code
(`rtr--; continue`) and hence are not part of the round list. -/

/-- Iterated PRNG step: `prng_successor(x, n)` of the external cipher
primitive, with the step function abstract. -/
def prng_successor (prng : Nat → Nat) (x n : Nat) : Nat := prng^[n] x

/-- The inner PRNG search loop of a calibration round
(mifarecmd.c:1417-1421): step from `nttmp` comparing against `nt2`,
indices `i = 101..1199` (fuel 1099). Returns the matching distance. -/
def findDistGo (prng : Nat → Nat) (nt2 : Nat) : Nat → Nat → Nat → Option Nat
  | _, _, 0 => none
  | nttmp, i, fuel + 1 =>
    let n := prng nttmp
    if n = nt2 then some i else findDistGo prng nt2 n (i + 1) fuel

/-- Distance search of one calibration round: `nttmp = prng_successor(nt1,
100)` then up to 1099 further single steps (distances 101..1199);
`none` models the loop ending with `i == 1200` (unsuccessful round). -/
def findDist (prng : Nat → Nat) (nt1 nt2 : Nat) : Option Nat :=
  findDistGo prng nt2 (prng_successor prng nt1 100) 101 1099

/-- One calibration round's transport observations. -/
structure CalRound where
  nt1 : Nat
  nt2 : Nat
  t1 : Nat
  t2 : Nat
deriving Repr, DecidableEq

/-- Engine status codes (subset of the PM3 codes reachable in the modelled
fragment: `PM3_SUCCESS`, `PM3_EFAILED`, `PM3_ESTATIC_NONCE`). -/
inductive Pm3Status where
  | success
  | efailed
  | estaticNonce
deriving Repr, DecidableEq

/-- Mutable state of the calibration loop (mifarecmd.c:1370-1377):
`davg`, working `dmin`/`dmax`, `delta_time`, `unsuccessful_tries`,
`prev_counter`, and `isOK`. -/
structure CalSt where
  davg : Nat
  dmin : Nat
  dmax : Nat
  delta_time : Nat
  unsuccessful_tries : Nat
  prev_counter : Nat
  isOK : Pm3Status
deriving Repr, DecidableEq

/-- Initial calibration state (mifarecmd.c:1364, 1373-1377): `davg = 0`,
`dmin = 2000`, `dmax = 0`, `delta_time = 0`, counters 0, `isOK` success. -/
def calInit : CalSt :=
  { davg := 0, dmin := 2000, dmax := 0, delta_time := 0,
    unsuccessful_tries := 0, prev_counter := 0, isOK := .success }

/-- Body of one calibration round `rtr` (mifarecmd.c:1417-1454, minus the
final static-nonce break which `calGo` performs): distance bookkeeping for
rounds 1.., timing offset for round 0 (`delta_time = auth2 - auth1 + 32`
in uint32 then truncated to uint16), unsuccessful-round counting with the
`> 12` not-vulnerable check, and the `nt1 == nt2` repetition counter. -/
def calStep (prng : Nat → Nat) (rtr : Nat) (r : CalRound) (st : CalSt) : CalSt :=
  let st1 :=
    match findDist prng r.nt1 r.nt2 with
    | some d =>
        if rtr ≠ 0 then
          { st with davg := st.davg + d, dmin := min st.dmin d,
                    dmax := max st.dmax d }
        else
          { st with delta_time :=
              ((r.t2 % 2 ^ 32 + 2 ^ 32 - r.t1 % 2 ^ 32 + 32) % 2 ^ 32) % 2 ^ 16 }
    | none =>
        let u := st.unsuccessful_tries + 1
        { st with unsuccessful_tries := u,
                  isOK := if u > 12 then .efailed else st.isOK }
  if r.nt1 = r.nt2 then { st1 with prev_counter := st1.prev_counter + 1 } else st1

/-- The calibration `for (rtr = 0; rtr < 17; rtr++)` loop
(mifarecmd.c:1379-1455). Early `break` with `isOK = PM3_ESTATIC_NONCE`
when `prev_counter` reaches 5; returns the state and the final value of
`rtr`. -/
def calGo (prng : Nat → Nat) : Nat → List CalRound → CalSt → CalSt × Nat
  | rtr, [], st => (st, rtr)
  | rtr, r :: rest, st =>
    if rtr < 17 then
      let st1 := calStep prng rtr r st
      if st1.prev_counter = 5 then ({ st1 with isOK := .estaticNonce }, rtr)
      else calGo prng (rtr + 1) rest st1
    else (st, rtr)

/-- Result of a calibration run: the window and offset handed to the
harvester, the status, and the final round counter. -/
structure CalResult where
  dmin : Nat
  dmax : Nat
  delta_time : Nat
  isOK : Pm3Status
  rtr : Nat
  davg : Nat
deriving Repr, DecidableEq

/-- A full calibration run (mifarecmd.c:1366-1466): the round loop, the
rounding division `davg = (davg + (rtr-1)/2) / (rtr-1)` when `rtr > 1`,
and the output window `dmin = davg - 2`, `dmax = davg + 2` (uint16
subtraction, hence the `% 2^16` wrap). -/
def calibrate (prng : Nat → Nat) (rounds : List CalRound) : CalResult :=
  let p := calGo prng 0 rounds calInit
  let st := p.1
  let rtr := p.2
  let davg := if rtr > 1 then (st.davg + (rtr - 1) / 2) / (rtr - 1) else st.davg
  { dmin := (davg + 2 ^ 16 - 2) % 2 ^ 16, dmax := (davg + 2) % 2 ^ 16,
    delta_time := st.delta_time, isOK := st.isOK, rtr := rtr, davg := davg }

/-! ## Nested-nonce harvester (`MifareNested`, mifarecmd.c:1472-1545). -/

/-- `bytes_to_num` (external util helper): big-endian byte concatenation. -/
def bytes_to_num (bs : List Nat) : Nat :=
  bs.foldl (fun a b => a * 256 + (b % 256)) 0

/-- One harvesting round's transport observations: the first-auth nonce
`nt1`, the 4 response bytes of the nested auth (`receivedAnswer`), and the
received parity byte `par[0]`. -/
structure HarvRound where
  nt1 : Nat
  ans : Nat → Nat
  par : Nat

/-- The encrypted nested nonce `nt2 = bytes_to_num(receivedAnswer, 4)`
(mifarecmd.c:1512). -/
def harvNt2 (r : HarvRound) : Nat :=
  bytes_to_num [r.ans 0, r.ans 1, r.ans 2, r.ans 3]

/-- The parity-error array (mifarecmd.c:1516-1518):
`par_array[j] = (oddparity8(receivedAnswer[j]) != ((par[0] >> (7-j)) & 1))`. -/
def harvParArray (r : HarvRound) : Nat → Nat :=
  fun j => if oddparity8 (r.ans j % 256) ≠ ((r.par >>> (7 - j)) &&& 1) then 1 else 0

/-- The candidate scan loop of one harvesting round
(mifarecmd.c:1520-1542): walk `nttest` through the window one PRNG step
per iteration, accept the first `valid_nonce` hit, dismiss the round
(target 0) on a second hit (ambiguity) or, when `prev = some p` (second
round, `target_nt[0] = p`), on a hit equal to `p`. State: current
`nttest`, remaining iterations, `ncount`, current `target_nt`/`target_ks`. -/
def nestedScanGo (prng : Nat → Nat) (nt2 : Nat) (par : Nat → Nat)
    (prev : Option Nat) : Nat → Nat → Nat → Nat → Nat → Nat × Nat
  | _, 0, _, tn, tk => (tn, tk)
  | nttest, fuel + 1, nc, tn, tk =>
    let nt := prng nttest
    let ks1 := nt2 ^^^ nt
    if valid_nonce nt nt2 ks1 par = 1 then
      if nc > 0 then (0, tk)
      else
        match prev with
        | some p =>
          if nt = p then (0, ks1)
          else nestedScanGo prng nt2 par prev nt fuel (nc + 1) nt ks1
        | none => nestedScanGo prng nt2 par prev nt fuel (nc + 1) nt ks1
    else nestedScanGo prng nt2 par prev nt fuel nc tn tk

/-- One harvesting round's scan over the calibration window
`j = dmin .. dmax` (mifarecmd.c:1520-1542). `nttest` starts at
`prng_successor(nt1, dmin - 1)` with uint16 wrap of `dmin - 1`.
Returns `(target_nt, target_ks)`; a zero `target_nt` means the round
accepted no nonce and is retried by the enclosing `while`. -/
def nestedScan (prng : Nat → Nat) (r : HarvRound) (dmin dmax : Nat)
    (prev : Option Nat) : Nat × Nat :=
  nestedScanGo prng (harvNt2 r) (harvParArray r) prev
    (prng_successor prng r.nt1 (if dmin = 0 then 2 ^ 16 - 1 else dmin - 1))
    (dmax + 1 - dmin) 0 0 0

/-- The `while (target_nt[i] == 0)` retry loop of one harvest round
(mifarecmd.c:1478-1544): consume round environments until a round accepts
(nonzero target). Returns the accepted pair and the unconsumed rounds;
`(0, 0)` when the environment list is exhausted. -/
def harvestRound (prng : Nat → Nat) (dmin dmax : Nat) (prev : Option Nat) :
    List HarvRound → (Nat × Nat) × List HarvRound
  | [] => ((0, 0), [])
  | r :: rest =>
    let t := nestedScan prng r dmin dmax prev
    if t.1 ≠ 0 then (t, rest) else harvestRound prng dmin dmax prev rest

/-- The two-round harvest (`for (i = 0; i < 2; ...)`,
mifarecmd.c:1472-1545): round 0 with no previous nonce, round 1 with
`prev = target_nt[0]`. -/
def harvest2 (prng : Nat → Nat) (dmin dmax : Nat) (envs : List HarvRound) :
    (Nat × Nat) × (Nat × Nat) :=
  let p0 := harvestRound prng dmin dmax none envs
  if p0.1.1 = 0 then (p0.1, (0, 0))
  else (p0.1, (harvestRound prng dmin dmax (some p0.1.1) p0.2).1)

/-- Result of a `MifareNested` call: reply payload fields plus the cleanup
facts of its single exit path (mifarecmd.c:1549-1575: `crypto1_deinit`
then `FpgaWriteConfWord(FPGA_MAJOR_MODE_OFF)` unconditionally). -/
structure NestedResult where
  isOK : Pm3Status
  dmin : Nat
  dmax : Nat
  delta_time : Nat
  rtr : Nat
  nt_a : Nat
  ks_a : Nat
  nt_b : Nat
  ks_b : Nat
  cipherReleased : Bool
  fieldOff : Bool
deriving Repr, DecidableEq

/-- `MifareNested` (mifarecmd.c:1330-1576): optional calibration (static
window/offset reused otherwise), then the two-round harvest (run only
while `isOK == PM3_SUCCESS`), then the unconditional cleanup. -/
def mifareNested (prng : Nat → Nat) (calRounds : List CalRound)
    (harvRounds : List HarvRound) (calibrateFlag : Bool)
    (dmin0 dmax0 delta0 : Nat) : NestedResult :=
  let c :=
    if calibrateFlag then calibrate prng calRounds
    else { dmin := dmin0, dmax := dmax0, delta_time := delta0,
           isOK := .success, rtr := 0, davg := 0 }
  let h :=
    if c.isOK = .success then harvest2 prng c.dmin c.dmax harvRounds
    else ((0, 0), (0, 0))
  { isOK := c.isOK, dmin := c.dmin, dmax := c.dmax,
    delta_time := c.delta_time, rtr := c.rtr,
    nt_a := h.1.1, ks_a := h.1.2, nt_b := h.2.1, ks_b := h.2.2,
    cipherReleased := true, fieldOff := true }

/-- The candidate at distance `j` of a harvesting round is valid: the
predicted nonce `prng_successor(nt1, j)` with derived keystream
`nt2 ^ nttest` passes `valid_nonce` against the round's parity-error
array. -/
abbrev validAt (prng : Nat → Nat) (r : HarvRound) (j : Nat) : Prop :=
  valid_nonce (prng_successor prng r.nt1 j) (harvNt2 r)
    (harvNt2 r ^^^ prng_successor prng r.nt1 j) (harvParArray r) = 1

theorem nestedScanGo_second_hit (prng : Nat → Nat) (nt2 : Nat)
    (par : Nat → Nat) (prev : Option Nat) :
    ∀ fuel s nc tn tk, 0 < nc →
      (∃ k, k < fuel ∧
        valid_nonce (prng^[k + 1] s) nt2 (nt2 ^^^ prng^[k + 1] s) par = 1) →
      (nestedScanGo prng nt2 par prev s fuel nc tn tk).1 = 0 := by
  intro fuel
  induction fuel with
  | zero => intro s nc tn tk _ h; obtain ⟨k, hk, -⟩ := h; omega
  | succ f ih =>
    intro s nc tn tk hnc h
    simp only [nestedScanGo]
    by_cases hv : valid_nonce (prng s) nt2 (nt2 ^^^ prng s) par = 1
    · rw [if_pos hv, if_pos hnc]
    · rw [if_neg hv]
      apply ih _ _ _ _ hnc
      obtain ⟨k, hk, hvk⟩ := h
      match k, hvk with
      | 0, hvk =>
        exact absurd (by simpa using hvk) hv
      | k' + 1, hvk =>
        refine ⟨k', by omega, ?_⟩
        rw [← Function.iterate_succ_apply]
        simpa using hvk

theorem nestedScanGo_ne_prev (prng : Nat → Nat) (nt2 : Nat)
    (par : Nat → Nat) (p : Nat) :
    ∀ fuel s nc tn tk, (tn = 0 ∨ tn ≠ p) →
      ((nestedScanGo prng nt2 par (some p) s fuel nc tn tk).1 = 0 ∨
       (nestedScanGo prng nt2 par (some p) s fuel nc tn tk).1 ≠ p) := by
  intro fuel
  induction fuel with
  | zero =>
    intro s nc tn tk hinv
    simpa [nestedScanGo] using hinv
  | succ f ih =>
    intro s nc tn tk hinv
    simp only [nestedScanGo]
    by_cases hv : valid_nonce (prng s) nt2 (nt2 ^^^ prng s) par = 1
    · rw [if_pos hv]
      by_cases hnc : nc > 0
      · rw [if_pos hnc]; left; rfl
      · rw [if_neg hnc]
        by_cases hp : prng s = p
        · rw [if_pos hp]; left; rfl
        · rw [if_neg hp]
          exact ih _ _ _ _ (Or.inr hp)
    · rw [if_neg hv]
      exact ih _ _ _ _ hinv

theorem nestedScanGo_ambiguous (prng : Nat → Nat) (nt2 : Nat)
    (par : Nat → Nat) (prev : Option Nat) :
    ∀ fuel s tn tk,
      (∃ k1 k2, k1 < k2 ∧ k2 < fuel ∧
        valid_nonce (prng^[k1 + 1] s) nt2 (nt2 ^^^ prng^[k1 + 1] s) par = 1 ∧
        valid_nonce (prng^[k2 + 1] s) nt2 (nt2 ^^^ prng^[k2 + 1] s) par = 1) →
      (nestedScanGo prng nt2 par prev s fuel 0 tn tk).1 = 0 := by
  intro fuel
  induction fuel with
  | zero => intro s tn tk h; obtain ⟨k1, k2, -, hk2, -⟩ := h; omega
  | succ f ih =>
    intro s tn tk h
    obtain ⟨k1, k2, hlt, hk2, hv1, hv2⟩ := h
    have htail : ∀ k, 0 < k → k < f + 1 →
        valid_nonce (prng^[k + 1] s) nt2 (nt2 ^^^ prng^[k + 1] s) par = 1 →
        valid_nonce (prng^[(k - 1) + 1] (prng s)) nt2
          (nt2 ^^^ prng^[(k - 1) + 1] (prng s)) par = 1 := by
      intro k hk0 _ hv
      have he : prng^[(k - 1) + 1] (prng s) = prng^[k + 1] s := by
        rw [← Function.iterate_succ_apply]
        congr 1
        omega
      rw [he]
      exact hv
    simp only [nestedScanGo]
    by_cases hv : valid_nonce (prng s) nt2 (nt2 ^^^ prng s) par = 1
    · rw [if_pos hv, if_neg (by omega : ¬(0 : Nat) > 0)]
      have hsecond : ∃ k, k < f ∧
          valid_nonce (prng^[k + 1] (prng s)) nt2
            (nt2 ^^^ prng^[k + 1] (prng s)) par = 1 := by
        refine ⟨k2 - 1, by omega, ?_⟩
        exact htail k2 (by omega) hk2 hv2
      cases prev with
      | none =>
        exact nestedScanGo_second_hit prng nt2 par none f (prng s) 1 (prng s) (nt2 ^^^ prng s) (by omega) hsecond
      | some p =>
        by_cases hp : prng s = p
        · simp only [hp, if_pos]
        · simp only [if_neg hp]
          exact nestedScanGo_second_hit prng nt2 par (some p) f (prng s) 1 (prng s) (nt2 ^^^ prng s) (by omega) hsecond
    · rw [if_neg hv]
      apply ih
      have hk1 : 0 < k1 := by
        rcases Nat.eq_zero_or_pos k1 with h0 | h0
        · subst h0; exact absurd (by simpa using hv1) hv
        · exact h0
      exact ⟨k1 - 1, k2 - 1, by omega, by omega,
        htail k1 hk1 (by omega) hv1, htail k2 (by omega) hk2 hv2⟩

theorem nestedScan_ne_prev (prng : Nat → Nat) (r : HarvRound)
    (dmin dmax p : Nat) :
    (nestedScan prng r dmin dmax (some p)).1 ≠ 0 →
    (nestedScan prng r dmin dmax (some p)).1 ≠ p := by
  intro h
  have hd := nestedScanGo_ne_prev prng (harvNt2 r) (harvParArray r) p
    (dmax + 1 - dmin)
    (prng_successor prng r.nt1 (if dmin = 0 then 2 ^ 16 - 1 else dmin - 1))
    0 0 0 (Or.inl rfl)
  unfold nestedScan at h ⊢
  rcases hd with h0 | hne
  · exact absurd h0 h
  · exact hne

theorem harvestRound_ne_prev (prng : Nat → Nat) (dmin dmax p : Nat) :
    ∀ envs : List HarvRound,
      (harvestRound prng dmin dmax (some p) envs).1.1 ≠ 0 →
      (harvestRound prng dmin dmax (some p) envs).1.1 ≠ p := by
  intro envs
  induction envs with
  | nil => intro h; exact absurd rfl h
  | cons r rest ih =>
    intro h
    by_cases ht : (nestedScan prng r dmin dmax (some p)).1 ≠ 0
    · have he : harvestRound prng dmin dmax (some p) (r :: rest) =
          (nestedScan prng r dmin dmax (some p), rest) := by
        simp only [harvestRound, if_pos ht]
      rw [he]
      exact nestedScan_ne_prev prng r dmin dmax p ht
    · have he : harvestRound prng dmin dmax (some p) (r :: rest) =
          harvestRound prng dmin dmax (some p) rest := by
        simp only [harvestRound, if_neg ht]
      rw [he] at h ⊢
      exact ih h

/-- C2: (1) if two distinct candidate distances inside the calibration
window `[dmin, dmax]` both pass the parity-validity test, the harvesting
round accepts no nonce (target 0, so the enclosing `while` retries it);
(2) a second-round scan never accepts a nonce equal to the first round's
accepted nonce; (3) consequently the two nonces output by the two-round
harvest, when both accepted, are distinct. -/
theorem nested_round_unambiguous_and_distinct :
    (∀ (prng : Nat → Nat) (r : HarvRound) (dmin dmax : Nat)
        (prev : Option Nat) (j1 j2 : Nat),
        1 ≤ dmin → dmin ≤ j1 → j1 < j2 → j2 ≤ dmax →
        validAt prng r j1 → validAt prng r j2 →
        (nestedScan prng r dmin dmax prev).1 = 0) ∧
    (∀ (prng : Nat → Nat) (r : HarvRound) (dmin dmax p : Nat),
        (nestedScan prng r dmin dmax (some p)).1 ≠ 0 →
        (nestedScan prng r dmin dmax (some p)).1 ≠ p) ∧
    (∀ (prng : Nat → Nat) (dmin dmax : Nat) (envs : List HarvRound),
        (harvest2 prng dmin dmax envs).1.1 ≠ 0 →
        (harvest2 prng dmin dmax envs).2.1 ≠ 0 →
        (harvest2 prng dmin dmax envs).2.1 ≠ (harvest2 prng dmin dmax envs).1.1) := by
  refine ⟨?_, nestedScan_ne_prev, ?_⟩
  · intro prng r dmin dmax prev j1 j2 hd hj1 hlt hj2 hv1 hv2
    unfold nestedScan
    apply nestedScanGo_ambiguous
    rw [if_neg (by omega : ¬dmin = 0)]
    have hcand : ∀ j, dmin ≤ j →
        prng^[(j - dmin) + 1] (prng_successor prng r.nt1 (dmin - 1)) =
        prng_successor prng r.nt1 j := by
      intro j hj
      unfold prng_successor
      rw [← Function.iterate_add_apply]
      congr 1
      omega
    refine ⟨j1 - dmin, j2 - dmin, by omega, by omega, ?_, ?_⟩
    · rw [hcand j1 hj1]; exact hv1
    · rw [hcand j2 (by omega)]; exact hv2
  · intro prng dmin dmax envs h0 h1
    unfold harvest2 at h0 h1 ⊢
    by_cases hz : (harvestRound prng dmin dmax none envs).1.1 = 0
    · rw [if_pos hz] at h1
      exact absurd rfl h1
    · rw [if_neg hz] at h1 ⊢
      exact harvestRound_ne_prev prng dmin dmax _ _ h1

/-- C2 witness: the round theorem applied at concrete rounds — an
ambiguous round (every window distance validates) is dismissed; a
second-round scan that accepts does so with a nonce different from the
first round's; a concrete two-round harvest yields distinct nonces. -/
theorem nested_round_unambiguous_and_distinct_witness :
    (nestedScan (fun n => n) ⟨0, fun _ => 0, 240⟩ 1 3 none).1 = 0 ∧
    (nestedScan (fun n => n) ⟨5, fun j => if j = 3 then 5 else 0, 240⟩ 1 1
      (some 3)).1 ≠ 3 ∧
    (harvest2 (fun n => n) 1 1
        [⟨5, fun j => if j = 3 then 5 else 0, 240⟩,
         ⟨7, fun j => if j = 3 then 7 else 0, 240⟩]).2.1 ≠
      (harvest2 (fun n => n) 1 1
        [⟨5, fun j => if j = 3 then 5 else 0, 240⟩,
         ⟨7, fun j => if j = 3 then 7 else 0, 240⟩]).1.1 := by
  refine ⟨?_, ?_, ?_⟩
  · exact nested_round_unambiguous_and_distinct.1 (fun n => n)
      ⟨0, fun _ => 0, 240⟩ 1 3 none 1 2 (by norm_num) (by norm_num)
      (by norm_num) (by norm_num) (by decide) (by decide)
  · exact nested_round_unambiguous_and_distinct.2.1 (fun n => n)
      ⟨5, fun j => if j = 3 then 5 else 0, 240⟩ 1 1 3 (by decide)
  · exact nested_round_unambiguous_and_distinct.2.2 (fun n => n) 1 1
      [⟨5, fun j => if j = 3 then 5 else 0, 240⟩,
       ⟨7, fun j => if j = 3 then 7 else 0, 240⟩] (by decide) (by decide)

/-! ## Calibration-loop lemmas (claims C4, C5, C6). -/

/-- The distance measured by a successful calibration round. -/
def distOf (prng : Nat → Nat) (r : CalRound) : Nat :=
  (findDist prng r.nt1 r.nt2).getD 0

/-- Number of rounds whose first-auth nonce equals the same round's nested
nonce (`nt1 == nt2`, the `prev_counter` increments). -/
def staticCnt (l : List CalRound) : Nat :=
  l.countP (fun r => r.nt1 == r.nt2)

theorem findDistGo_range (prng : Nat → Nat) (nt2 : Nat) :
    ∀ fuel s i d, findDistGo prng nt2 s i fuel = some d → i ≤ d ∧ d < i + fuel := by
  intro fuel
  induction fuel with
  | zero => intro s i d h; exact absurd h (by simp [findDistGo])
  | succ f ih =>
    intro s i d h
    simp only [findDistGo] at h
    split at h
    · obtain rfl : i = d := by simpa using h
      omega
    · have := ih (prng s) (i + 1) d h
      omega

theorem findDist_range (prng : Nat → Nat) (nt1 nt2 d : Nat)
    (h : findDist prng nt1 nt2 = some d) : 101 ≤ d ∧ d ≤ 1199 := by
  have := findDistGo_range prng nt2 1099 (prng_successor prng nt1 100) 101 d h
  omega

theorem findDistGo_none (prng : Nat → Nat) (nt2 : Nat) :
    ∀ fuel s i, (∀ k, k < fuel → prng^[k + 1] s ≠ nt2) →
      findDistGo prng nt2 s i fuel = none := by
  intro fuel
  induction fuel with
  | zero => intro s i _; rfl
  | succ f ih =>
    intro s i h
    simp only [findDistGo]
    rw [if_neg (by simpa using h 0 (by omega))]
    apply ih
    intro k hk
    have := h (k + 1) (by omega)
    rw [Function.iterate_succ_apply] at this
    exact this

/-- A round with no PRNG match within 1200 forward steps of the first
nonce: `prng_successor(nt1, k) ≠ nt2` for every `k` in `1..1200`. -/
def noMatch1200 (prng : Nat → Nat) (r : CalRound) : Prop :=
  ∀ k, 1 ≤ k → k ≤ 1200 → prng_successor prng r.nt1 k ≠ r.nt2

theorem findDist_none_of_noMatch (prng : Nat → Nat) (r : CalRound)
    (h : noMatch1200 prng r) : findDist prng r.nt1 r.nt2 = none := by
  unfold findDist
  apply findDistGo_none
  intro k hk
  have he2 : k + 1 + 100 = k + 101 := by omega
  have he : prng^[k + 1] (prng_successor prng r.nt1 100) =
      prng_successor prng r.nt1 (k + 101) := by
    unfold prng_successor
    rw [← Function.iterate_add_apply, he2]
  rw [he]
  exact h (k + 101) (by omega) (by omega)

/-- The uint16 timing offset computed in round 0:
`delta_time = auth2_time - auth1_time + 32` in uint32 arithmetic,
truncated to uint16. -/
def deltaOf (r : CalRound) : Nat :=
  ((r.t2 % 2 ^ 32 + 2 ^ 32 - r.t1 % 2 ^ 32 + 32) % 2 ^ 32) % 2 ^ 16

theorem calStep_some (prng : Nat → Nat) (rtr : Nat) (r : CalRound) (st : CalSt)
    (d : Nat) (hd : findDist prng r.nt1 r.nt2 = some d) (hr : rtr ≠ 0) :
    calStep prng rtr r st =
      { st with davg := st.davg + d, dmin := min st.dmin d, dmax := max st.dmax d,
                prev_counter := st.prev_counter + (if r.nt1 = r.nt2 then 1 else 0) } := by
  unfold calStep
  rw [hd]
  simp only [if_pos hr]
  by_cases hs : r.nt1 = r.nt2
  · rw [if_pos hs, if_pos hs]
  · rw [if_neg hs, if_neg hs]
    rfl

theorem calStep_zero (prng : Nat → Nat) (r : CalRound) (st : CalSt)
    (d : Nat) (hd : findDist prng r.nt1 r.nt2 = some d) :
    calStep prng 0 r st =
      { st with delta_time := deltaOf r,
                prev_counter := st.prev_counter + (if r.nt1 = r.nt2 then 1 else 0) } := by
  unfold calStep deltaOf
  rw [hd]
  simp only [ne_eq, not_true_eq_false, if_false, ite_false]
  by_cases hs : r.nt1 = r.nt2
  · rw [if_pos hs, if_pos hs]
  · rw [if_neg hs, if_neg hs]
    rfl

theorem calStep_none (prng : Nat → Nat) (rtr : Nat) (r : CalRound) (st : CalSt)
    (hd : findDist prng r.nt1 r.nt2 = none) :
    calStep prng rtr r st =
      { st with unsuccessful_tries := st.unsuccessful_tries + 1,
                isOK := if st.unsuccessful_tries + 1 > 12 then .efailed else st.isOK,
                prev_counter := st.prev_counter + (if r.nt1 = r.nt2 then 1 else 0) } := by
  unfold calStep
  rw [hd]
  by_cases hs : r.nt1 = r.nt2
  · rw [if_pos hs, if_pos hs]
  · rw [if_neg hs, if_neg hs]
    rfl

theorem staticCnt_cons (r : CalRound) (l : List CalRound) :
    staticCnt (r :: l) = staticCnt l + (if r.nt1 = r.nt2 then 1 else 0) := by
  by_cases hs : r.nt1 = r.nt2 <;>
    simp [staticCnt, List.countP_cons, hs]

theorem calGo_success_tail (prng : Nat → Nat) :
    ∀ (rounds : List CalRound) (rtr : Nat) (st : CalSt),
      1 ≤ rtr → rtr + rounds.length ≤ 17 →
      (∀ r ∈ rounds, (findDist prng r.nt1 r.nt2).isSome) →
      st.prev_counter + staticCnt rounds < 5 →
      (calGo prng rtr rounds st).1.davg = st.davg + (rounds.map (distOf prng)).sum ∧
      (calGo prng rtr rounds st).1.delta_time = st.delta_time ∧
      (calGo prng rtr rounds st).1.isOK = st.isOK ∧
      (calGo prng rtr rounds st).2 = rtr + rounds.length := by
  intro rounds
  induction rounds with
  | nil => intro rtr st _ _ _ _; simp [calGo]
  | cons r rest ih =>
    intro rtr st h1 h2 h3 h4
    have hlen : (r :: rest).length = rest.length + 1 := by simp
    have hr17 : rtr < 17 := by omega
    obtain ⟨d, hd⟩ := Option.isSome_iff_exists.mp (h3 r (by simp))
    have hdist : distOf prng r = d := by simp [distOf, hd]
    have hcnt := staticCnt_cons r rest
    simp only [calGo, if_pos hr17]
    rw [calStep_some prng rtr r st d hd (by omega)]
    rw [if_neg (by dsimp only; omega)]
    have := ih (rtr + 1)
      { st with davg := st.davg + d, dmin := min st.dmin d, dmax := max st.dmax d,
                prev_counter := st.prev_counter + (if r.nt1 = r.nt2 then 1 else 0) }
      (by omega) (by simp at h2 ⊢; omega)
      (fun x hx => h3 x (by simp [hx]))
      (by dsimp only; omega)
    refine ⟨?_, ?_, ?_, ?_⟩
    · rw [this.1]
      simp [hdist]
      omega
    · rw [this.2.1]
    · rw [this.2.2.1]
    · rw [this.2.2.2]
      simp
      omega

theorem sum_bounds : ∀ l : List Nat, (∀ x ∈ l, 101 ≤ x ∧ x ≤ 1199) →
    101 * l.length ≤ l.sum ∧ l.sum ≤ 1199 * l.length := by
  intro l
  induction l with
  | nil => intro _; simp
  | cons a t ih =>
    intro h
    have ha := h a (by simp)
    have ht := ih (fun x hx => h x (by simp [hx]))
    simp only [List.sum_cons, List.length_cons]
    constructor <;> [skip; skip] <;> omega

/-- The rounded running average of the distances of calibration rounds
1..16: `davg = (sum + (rtr-1)/2) / (rtr-1)` with `rtr = 17` after a full
run, i.e. `(sum + 8) / 16`. -/
def calAvg (prng : Nat → Nat) (rounds : List CalRound) : Nat :=
  (((rounds.drop 1).map (distOf prng)).sum + 8) / 16

/-- C4: after a full 17-round calibration run (every round's PRNG search
finds a distance, fewer than five `nt1 == nt2` rounds, so no early break),
the window handed to the harvester by `MifareNested` is exactly
`[average - 2, average + 2]` where `average` is the rounded running
average of the distances of rounds 1..16, and round 0 contributes no
distance — it only fixes the timing offset
`delta_time = auth2_time - auth1_time + 32`. -/
theorem calibration_window_is_avg_pm2 (prng : Nat → Nat) (r0 : CalRound)
    (rest : List CalRound) (harv : List HarvRound) (d0 d1 d2 : Nat)
    (hlen : rest.length = 16)
    (hsucc : ∀ r ∈ r0 :: rest, (findDist prng r.nt1 r.nt2).isSome)
    (hstat : staticCnt (r0 :: rest) ≤ 4) :
    (mifareNested prng (r0 :: rest) harv true d0 d1 d2).dmin =
      calAvg prng (r0 :: rest) - 2 ∧
    (mifareNested prng (r0 :: rest) harv true d0 d1 d2).dmax =
      calAvg prng (r0 :: rest) + 2 ∧
    (mifareNested prng (r0 :: rest) harv true d0 d1 d2).delta_time = deltaOf r0 ∧
    (mifareNested prng (r0 :: rest) harv true d0 d1 d2).isOK = .success ∧
    (mifareNested prng (r0 :: rest) harv true d0 d1 d2).rtr = 17 := by
  obtain ⟨e0, he0⟩ := Option.isSome_iff_exists.mp (hsucc r0 (by simp))
  have hcnt := staticCnt_cons r0 rest
  -- unfold the first calibration round (rtr = 0)
  have hgo : calGo prng 0 (r0 :: rest) calInit =
      calGo prng 1 rest
        { calInit with
            delta_time := deltaOf r0,
            prev_counter := calInit.prev_counter + (if r0.nt1 = r0.nt2 then 1 else 0) } := by
    simp only [calGo, if_pos (by omega : (0 : Nat) < 17)]
    rw [calStep_zero prng r0 calInit e0 he0]
    rw [if_neg (by dsimp only [calInit]; omega)]
  have htail := calGo_success_tail prng rest 1
      { calInit with
          delta_time := deltaOf r0,
          prev_counter := calInit.prev_counter + (if r0.nt1 = r0.nt2 then 1 else 0) }
      (by omega) (by omega)
      (fun x hx => hsucc x (by simp [hx]))
      (by dsimp only [calInit]; omega)
  -- distance bounds
  have hrange : ∀ x ∈ rest.map (distOf prng), 101 ≤ x ∧ x ≤ 1199 := by
    intro x hx
    obtain ⟨r, hr, rfl⟩ := List.mem_map.mp hx
    obtain ⟨e, he⟩ := Option.isSome_iff_exists.mp (hsucc r (by simp [hr]))
    have := findDist_range prng r.nt1 r.nt2 e he
    simp [distOf, he]
    omega
  have hsum := sum_bounds (rest.map (distOf prng)) hrange
  rw [List.length_map, hlen] at hsum
  -- the calibrate record
  have hcal : (calibrate prng (r0 :: rest)).dmin = calAvg prng (r0 :: rest) - 2 ∧
      (calibrate prng (r0 :: rest)).dmax = calAvg prng (r0 :: rest) + 2 ∧
      (calibrate prng (r0 :: rest)).delta_time = deltaOf r0 ∧
      (calibrate prng (r0 :: rest)).isOK = .success ∧
      (calibrate prng (r0 :: rest)).rtr = 17 := by
    unfold calibrate
    rw [hgo]
    obtain ⟨hdavg, hdelta, hok, hrtr⟩ := htail
    have hrtr' : (calGo prng 1 rest
        { calInit with
            delta_time := deltaOf r0,
            prev_counter := calInit.prev_counter + (if r0.nt1 = r0.nt2 then 1 else 0) }).2 =
        17 := by rw [hrtr, hlen]
    have hdavg' : (calGo prng 1 rest
        { calInit with
            delta_time := deltaOf r0,
            prev_counter := calInit.prev_counter + (if r0.nt1 = r0.nt2 then 1 else 0) }).1.davg =
        (rest.map (distOf prng)).sum := by rw [hdavg]; simp [calInit]
    have hdelta' : (calGo prng 1 rest
        { calInit with
            delta_time := deltaOf r0,
            prev_counter := calInit.prev_counter + (if r0.nt1 = r0.nt2 then 1 else 0) }).1.delta_time =
        deltaOf r0 := by rw [hdelta]
    have hok' : (calGo prng 1 rest
        { calInit with
            delta_time := deltaOf r0,
            prev_counter := calInit.prev_counter + (if r0.nt1 = r0.nt2 then 1 else 0) }).1.isOK =
        Pm3Status.success := by rw [hok]; simp [calInit]
    have havg : calAvg prng (r0 :: rest) = ((rest.map (distOf prng)).sum + 8) / 16 := by
      simp [calAvg]
    simp only [hrtr', hdavg', hdelta', hok']
    refine ⟨?_, ?_, trivial, trivial, trivial⟩
    · rw [if_pos (by omega : (17 : Nat) > 1), havg]
      omega
    · rw [if_pos (by omega : (17 : Nat) > 1), havg]
      omega
  simpa [mifareNested, hcal.2.2.2.1] using hcal

/-- C4 witness: a concrete full calibration run (PRNG = successor on Nat,
every round measures distance 150) through the window theorem. -/
theorem calibration_window_is_avg_pm2_witness :
    (mifareNested Nat.succ (⟨0, 150, 0, 100⟩ :: List.replicate 16 ⟨0, 150, 0, 100⟩)
        [] true 0 0 0).dmin =
      calAvg Nat.succ (⟨0, 150, 0, 100⟩ :: List.replicate 16 ⟨0, 150, 0, 100⟩) - 2 ∧
    (mifareNested Nat.succ (⟨0, 150, 0, 100⟩ :: List.replicate 16 ⟨0, 150, 0, 100⟩)
        [] true 0 0 0).dmax =
      calAvg Nat.succ (⟨0, 150, 0, 100⟩ :: List.replicate 16 ⟨0, 150, 0, 100⟩) + 2 ∧
    (mifareNested Nat.succ (⟨0, 150, 0, 100⟩ :: List.replicate 16 ⟨0, 150, 0, 100⟩)
        [] true 0 0 0).delta_time = deltaOf ⟨0, 150, 0, 100⟩ ∧
    (mifareNested Nat.succ (⟨0, 150, 0, 100⟩ :: List.replicate 16 ⟨0, 150, 0, 100⟩)
        [] true 0 0 0).isOK = .success ∧
    (mifareNested Nat.succ (⟨0, 150, 0, 100⟩ :: List.replicate 16 ⟨0, 150, 0, 100⟩)
        [] true 0 0 0).rtr = 17 :=
  calibration_window_is_avg_pm2 Nat.succ ⟨0, 150, 0, 100⟩
    (List.replicate 16 ⟨0, 150, 0, 100⟩) [] 0 0 0 (by decide)
    (by decide) (by decide)

/-! ## C5: not-vulnerable classification after unsuccessful rounds. -/

/-- Number of unsuccessful rounds (distance search found no match). -/
def unsuccCnt (prng : Nat → Nat) (l : List CalRound) : Nat :=
  l.countP (fun r => (findDist prng r.nt1 r.nt2).isNone)

theorem calStep_prev_counter (prng : Nat → Nat) (rtr : Nat) (r : CalRound)
    (st : CalSt) :
    (calStep prng rtr r st).prev_counter =
      st.prev_counter + (if r.nt1 = r.nt2 then 1 else 0) := by
  unfold calStep
  cases hd : findDist prng r.nt1 r.nt2 with
  | some d =>
    by_cases hr : rtr ≠ 0 <;> by_cases hs : r.nt1 = r.nt2 <;>
      simp [hr, hs]
  | none =>
    by_cases hs : r.nt1 = r.nt2 <;> simp [hs]

theorem calGo_keeps_efailed (prng : Nat → Nat) :
    ∀ (rounds : List CalRound) (rtr : Nat) (st : CalSt),
      st.isOK = .efailed →
      st.prev_counter + staticCnt rounds < 5 →
      (calGo prng rtr rounds st).1.isOK = .efailed := by
  intro rounds
  induction rounds with
  | nil => intro rtr st hok _; simpa [calGo] using hok
  | cons r rest ih =>
    intro rtr st hok hcnt
    have hcnt' := staticCnt_cons r rest
    by_cases hr : rtr < 17
    · simp only [calGo, if_pos hr]
      have hprev := calStep_prev_counter prng rtr r st
      have hok2 : (calStep prng rtr r st).isOK = .efailed := by
        unfold calStep
        cases hd : findDist prng r.nt1 r.nt2 with
        | some d =>
          by_cases hz : rtr ≠ 0 <;> by_cases hs : r.nt1 = r.nt2 <;>
            simp [hz, hs, hok]
        | none =>
          by_cases hs : r.nt1 = r.nt2 <;>
            simp [hs, hok]
      rw [if_neg (by omega)]
      apply ih _ _ hok2
      omega
    · simpa [calGo, if_neg hr] using hok

theorem calGo_reaches_efailed (prng : Nat → Nat) :
    ∀ (rounds : List CalRound) (rtr : Nat) (st : CalSt),
      (12 < st.unsuccessful_tries → st.isOK = .efailed) →
      st.prev_counter + staticCnt rounds < 5 →
      13 ≤ st.unsuccessful_tries + unsuccCnt prng rounds →
      rtr + rounds.length ≤ 17 →
      (calGo prng rtr rounds st).1.isOK = .efailed := by
  intro rounds
  induction rounds with
  | nil =>
    intro rtr st hinv _ h13 _
    have : unsuccCnt prng ([] : List CalRound) = 0 := by simp [unsuccCnt]
    simp only [calGo]
    exact hinv (by omega)
  | cons r rest ih =>
    intro rtr st hinv hcnt h13 hlen
    have hcnt' := staticCnt_cons r rest
    have hr : rtr < 17 := by simp at hlen; omega
    simp only [calGo, if_pos hr]
    have hprev := calStep_prev_counter prng rtr r st
    rw [if_neg (by omega)]
    cases hd : findDist prng r.nt1 r.nt2 with
    | some d =>
      have hu : (calStep prng rtr r st).unsuccessful_tries = st.unsuccessful_tries ∧
          (calStep prng rtr r st).isOK = st.isOK := by
        unfold calStep
        rw [hd]
        by_cases hz : rtr ≠ 0 <;> by_cases hs : r.nt1 = r.nt2 <;> simp [hz, hs]
      have hc : unsuccCnt prng (r :: rest) = unsuccCnt prng rest := by
        simp [unsuccCnt, List.countP_cons, hd]
      apply ih
      · intro hgt; rw [hu.2]; exact hinv (by omega)
      · omega
      · rw [hu.1]; rw [hc] at h13; omega
      · simp at hlen; omega
    | none =>
      have hu : (calStep prng rtr r st).unsuccessful_tries = st.unsuccessful_tries + 1 ∧
          (calStep prng rtr r st).isOK =
            (if st.unsuccessful_tries + 1 > 12 then .efailed else st.isOK) := by
        unfold calStep
        rw [hd]
        by_cases hs : r.nt1 = r.nt2 <;> simp [hs]
      have hc : unsuccCnt prng (r :: rest) = unsuccCnt prng rest + 1 := by
        simp [unsuccCnt, List.countP_cons, hd]
      apply ih
      · intro hgt
        rw [hu.2]
        by_cases h12 : st.unsuccessful_tries + 1 > 12
        · rw [if_pos h12]
        · rw [if_neg h12]
          exact hinv (by omega)
      · omega
      · rw [hu.1]; rw [hc] at h13; omega
      · simp at hlen; omega

/-- C5: a calibration round with no PRNG match within 1200 forward steps
of the first nonce counts as unsuccessful, and a run of 13 (more than 12)
consecutive unsuccessful rounds inside the 17 calibration rounds makes
`MifareNested` classify the tag as not vulnerable: the final status is
`PM3_EFAILED` (given the static-nonce break never fires, i.e. fewer than
five `nt1 == nt2` rounds). -/
theorem calibration_not_vulnerable_after_13_unsuccessful
    (prng : Nat → Nat) (pre mid post : List CalRound)
    (harv : List HarvRound) (d0 d1 d2 : Nat)
    (hmid : mid.length = 13)
    (hlen : (pre ++ mid ++ post).length = 17)
    (hnm : ∀ r ∈ mid, noMatch1200 prng r)
    (hstat : staticCnt (pre ++ mid ++ post) ≤ 4) :
    (mifareNested prng (pre ++ mid ++ post) harv true d0 d1 d2).isOK = .efailed := by
  have hmidcnt : unsuccCnt prng mid = 13 := by
    rw [← hmid]
    apply List.countP_eq_length.mpr
    intro r hr
    simp [findDist_none_of_noMatch prng r (hnm r hr)]
  have htot : 13 ≤ unsuccCnt prng (pre ++ mid ++ post) := by
    have : unsuccCnt prng (pre ++ mid ++ post) =
        unsuccCnt prng pre + unsuccCnt prng mid + unsuccCnt prng post := by
      simp only [unsuccCnt, List.countP_append]
    omega
  have hgo := calGo_reaches_efailed prng (pre ++ mid ++ post) 0 calInit
    (by intro h; simp [calInit] at h)
    (by dsimp only [calInit]; omega)
    (by dsimp only [calInit]; omega)
    (by omega)
  have hcal : (calibrate prng (pre ++ mid ++ post)).isOK = .efailed := by
    unfold calibrate
    exact hgo
  have hpass : (mifareNested prng (pre ++ mid ++ post) harv true d0 d1 d2).isOK =
      (calibrate prng (pre ++ mid ++ post)).isOK := rfl
  rw [hpass, hcal]

/-- C5 witness: a concrete 17-round run (identity PRNG, `nt1 = 100`,
`nt2 = 5`) in which 13 consecutive rounds find no match, classified
not vulnerable via the theorem. -/
theorem calibration_not_vulnerable_witness :
    (mifareNested (fun n => n)
        (([] : List CalRound) ++ List.replicate 13 ⟨100, 5, 0, 0⟩ ++
          List.replicate 4 ⟨100, 5, 0, 0⟩) [] true 0 0 0).isOK = .efailed := by
  apply calibration_not_vulnerable_after_13_unsuccessful
  · decide
  · decide
  · intro r hr
    have hre := List.eq_of_mem_replicate hr
    subst hre
    intro k _ _
    unfold prng_successor
    rw [Function.iterate_fixed rfl]
    decide
  · decide

/-! ## C6: the static-nonce early break of the calibration loop. -/

theorem calGo_static_break (prng : Nat → Nat) :
    ∀ (b : Nat) (rounds : List CalRound) (rtr : Nat) (st : CalSt),
      b < rounds.length → rtr + b < 17 →
      st.prev_counter + staticCnt (rounds.take (b + 1)) = 5 →
      st.prev_counter + staticCnt (rounds.take b) = 4 →
      (calGo prng rtr rounds st).1.isOK = .estaticNonce ∧
      (calGo prng rtr rounds st).2 = rtr + b := by
  intro b
  induction b with
  | zero =>
    intro rounds rtr st hb h17 h5 h4
    match rounds, hb with
    | r :: rest, _ =>
      have ht0 : staticCnt ((r :: rest).take 0) = 0 := by simp [staticCnt]
      have ht1 : staticCnt ((r :: rest).take 1) =
          (if r.nt1 = r.nt2 then 1 else 0) := by
        by_cases hs : r.nt1 = r.nt2 <;> simp [staticCnt, hs]
      rw [ht1] at h5
      rw [ht0] at h4
      have hprev := calStep_prev_counter prng rtr r st
      simp only [calGo, if_pos (by omega : rtr < 17)]
      rw [if_pos (by omega)]
      exact ⟨rfl, rfl⟩
  | succ b ih =>
    intro rounds rtr st hb h17 h5 h4
    match rounds, hb with
    | r :: rest, hb2 =>
      have hc1 : staticCnt ((r :: rest).take (b + 2)) =
          (if r.nt1 = r.nt2 then 1 else 0) + staticCnt (rest.take (b + 1)) := by
        by_cases hs : r.nt1 = r.nt2 <;>
          simp [staticCnt, List.countP_cons, hs] <;> omega
      have hc2 : staticCnt ((r :: rest).take (b + 1)) =
          (if r.nt1 = r.nt2 then 1 else 0) + staticCnt (rest.take b) := by
        by_cases hs : r.nt1 = r.nt2 <;>
          simp [staticCnt, List.countP_cons, hs] <;> omega
      rw [hc1] at h5
      rw [hc2] at h4
      have hprev := calStep_prev_counter prng rtr r st
      simp only [calGo, if_pos (by omega : rtr < 17)]
      rw [if_neg (by omega)]
      have hrec := ih rest (rtr + 1) (calStep prng rtr r st)
        (by simp only [List.length_cons] at hb2; omega) (by omega) (by omega) (by omega)
      exact ⟨hrec.1, by rw [hrec.2]; omega⟩

/-- C6 (amended): the calibration loop classifies the tag as static and
breaks out early when the CUMULATIVE count of rounds whose nested nonce
`nt2` equals that same round's first-auth nonce `nt1` reaches five — the
rounds need not be consecutive and the comparison is `nt1 == nt2` within
one round, not equality of nested nonces across rounds. When the fifth
such round is round `b` (0-based, `b < 17`), `MifareNested` reports
`PM3_ESTATIC_NONCE` and the loop stops at round `b`. -/
theorem calibration_static_break_on_fifth_nt1_eq_nt2
    (prng : Nat → Nat) (rounds : List CalRound) (harv : List HarvRound)
    (d0 d1 d2 b : Nat)
    (hb : b < rounds.length) (h17 : b < 17)
    (h5 : staticCnt (rounds.take (b + 1)) = 5)
    (h4 : staticCnt (rounds.take b) = 4) :
    (mifareNested prng rounds harv true d0 d1 d2).isOK = .estaticNonce ∧
    (mifareNested prng rounds harv true d0 d1 d2).rtr = b := by
  have hgo := calGo_static_break prng b rounds 0 calInit hb (by omega)
    (by dsimp only [calInit]; omega) (by dsimp only [calInit]; omega)
  have hok : (mifareNested prng rounds harv true d0 d1 d2).isOK =
      (calGo prng 0 rounds calInit).1.isOK := rfl
  have hrtr : (mifareNested prng rounds harv true d0 d1 d2).rtr =
      (calGo prng 0 rounds calInit).2 := rfl
  rw [hok, hrtr, hgo.1, hgo.2]
  exact ⟨rfl, by omega⟩

/-- C6 counterexample: a 17-round run in which every round yields the
identical nested nonce 5 (in particular five consecutive rounds do), yet
`nt1 ≠ nt2` in every round, so the code never classifies the tag as
static — the final status is `PM3_EFAILED`, refuting the claim that five
consecutive identical nested nonces trigger the static classification. -/
theorem calibration_static_break_counterexample :
    (∀ r ∈ List.replicate 17 (⟨100, 5, 0, 0⟩ : CalRound), r.nt2 = 5) ∧
    (mifareNested (fun n => n) (List.replicate 17 ⟨100, 5, 0, 0⟩)
        [] true 0 0 0).isOK ≠ .estaticNonce := by
  constructor
  · intro r hr
    rw [List.eq_of_mem_replicate hr]
  · have h : List.replicate 17 (⟨100, 5, 0, 0⟩ : CalRound) =
        ([] : List CalRound) ++ List.replicate 13 ⟨100, 5, 0, 0⟩ ++
          List.replicate 4 ⟨100, 5, 0, 0⟩ := by decide
    rw [h, calibration_not_vulnerable_witness]
    decide

/-- C6 witness: the amended theorem applied to a run whose first five
rounds all have `nt1 == nt2`: classified static with the loop stopping at
round 4. -/
theorem calibration_static_break_witness :
    (mifareNested (fun n => n) (List.replicate 17 ⟨7, 7, 0, 0⟩)
        [] true 0 0 0).isOK = .estaticNonce ∧
    (mifareNested (fun n => n) (List.replicate 17 ⟨7, 7, 0, 0⟩)
        [] true 0 0 0).rtr = 4 :=
  calibration_static_break_on_fifth_nt1_eq_nt2 (fun n => n)
    (List.replicate 17 ⟨7, 7, 0, 0⟩) [] 0 0 0 4
    (by decide) (by decide) (by decide) (by decide)

/-! ## Static-nonce classifiers (`MifareHasStaticNonce`,
mifarecmd.c:3175-3236, and `MifareHasStaticEncryptedNonce`,
mifarecmd.c:3242-3441). -/

/-- The classification byte written to `data[0]` (header constants
`NONCE_FAIL` / `NONCE_NORMAL` / `NONCE_STATIC` / `NONCE_STATIC_ENC` /
`NONCE_SUPERSTATIC`, abstracted as an inductive of distinct values). -/
inductive NonceVerdict where
  | fail
  | normal
  | static
  | staticEnc
  | superStatic
deriving Repr, DecidableEq

/-- The repetition counter of `MifareHasStaticNonce`
(mifarecmd.c:3191-3221): per round, compare the nonce against the
previous-nonce variable `nt` (initialized to 0 before the loop), then
update `nt`. -/
def staticNonceCounterGo : Nat → Nat → List Nat → Nat
  | _, counter, [] => counter
  | nt, counter, n :: rest =>
    staticNonceCounterGo n (if nt = n then counter + 1 else counter) rest

/-- `MifareHasStaticNonce` on the cleartext nonces of its three successful
first authentications (mifarecmd.c:3191-3228): static when the repetition
counter is nonzero, else normal. -/
def mifareHasStaticNonce (nonces : List Nat) : NonceVerdict :=
  if staticNonceCounterGo 0 0 nonces ≠ 0 then .static else .normal

/-- C10: because the previous-nonce variable starts at 0, a run whose
FIRST authentication returns nonce 0x00000000 bumps the counter in round
0, and the tag is reported static even when consecutive collected nonces
are pairwise distinct. -/
theorem static_nonce_zero_first_nonce_misclassified (n0 n1 n2 : Nat)
    (h0 : n0 = 0) (h1 : n1 ≠ n0) (h2 : n2 ≠ n1) :
    staticNonceCounterGo 0 0 [n0] = 1 ∧
    mifareHasStaticNonce [n0, n1, n2] = .static := by
  subst h0
  constructor
  · simp [staticNonceCounterGo]
  · have s2 : staticNonceCounterGo 0 1 [n1, n2] = staticNonceCounterGo n1 1 [n2] := by
      show staticNonceCounterGo n1 (if (0 : Nat) = n1 then 1 + 1 else 1) [n2] = _
      rw [if_neg (fun he => h1 he.symm)]
    have s3 : staticNonceCounterGo n1 1 [n2] = 1 := by
      show staticNonceCounterGo n2 (if n1 = n2 then 1 + 1 else 1) [] = 1
      rw [if_neg (fun he => h2 he.symm)]
      rfl
    have hc : staticNonceCounterGo 0 0 [0, n1, n2] = 1 := by
      show staticNonceCounterGo 0 1 [n1, n2] = 1
      rw [s2, s3]
    simp [mifareHasStaticNonce, hc]

/-- C10 witness: nonces `0, 1, 2` (pairwise distinct, first is zero) are
classified static. -/
theorem static_nonce_zero_first_nonce_misclassified_witness :
    staticNonceCounterGo 0 0 [0] = 1 ∧
    mifareHasStaticNonce [0, 1, 2] = .static :=
  static_nonce_zero_first_nonce_misclassified 0 1 2 rfl (by decide) (by decide)

/-- One probing round of the extended classifier: outcomes of the
(possible) first authentication, the optional extra nested authentication
(`addauth`), and the nested authentication against the target block. -/
structure EncRound where
  firstAuthOk : Bool
  nt_first : Nat
  addauthOk : Bool
  addauthNt : Nat
  nestedOk : Bool
  nt : Nat
  ntenc : Nat
deriving Repr, DecidableEq

/-- Counter/temporary state of `MifareHasStaticEncryptedNonce`
(mifarecmd.c:3259-3277). -/
structure EncSt where
  need_first_auth : Bool
  first_nt_counter : Nat
  first_nt_repetition_counter : Nat
  nested_nt_session_counter : Nat
  nested_nt_repetition_counter : Nat
  first_and_nested_nt_repetition_counter : Nat
  old_nt_first : Nat
  oldntenc : Nat
  nt : Nat
  nt_first : Nat
  ntenc : Nat
deriving Repr, DecidableEq

/-- Initial classifier state (mifarecmd.c:3259-3277). -/
def encInit : EncSt :=
  { need_first_auth := true, first_nt_counter := 0,
    first_nt_repetition_counter := 0, nested_nt_session_counter := 0,
    nested_nt_repetition_counter := 0,
    first_and_nested_nt_repetition_counter := 0,
    old_nt_first := 0, oldntenc := 0, nt := 0, nt_first := 0, ntenc := 0 }

/-- One iteration of the probing loop (mifarecmd.c:3295-3389): the
conditional first authentication (with repetition counting against
`old_nt_first`, `need_first_auth` cleared only when neither `reset` nor
`hardreset` is set, and the optional `addauth` nested authentication
counting `nt == nt_first`), then the nested authentication (on failure
`nt`/`ntenc` stay zeroed and `need_first_auth` is set), the session
counter, the `nt == nt_first` super-static counter, and the
encrypted-nonce repetition counter against `oldntenc`. `none` models the
`goto OUT` on a failed first/addauth authentication (reply `NONCE_FAIL`). -/
def encStep (reset hardreset addauth : Bool) (r : EncRound) (st : EncSt) :
    Option EncSt :=
  let phase1 : Option EncSt :=
    if st.need_first_auth then
      if r.firstAuthOk = false then none
      else
        let st1 :=
          { st with
              nt_first := r.nt_first,
              first_nt_counter := st.first_nt_counter + 1,
              first_nt_repetition_counter := st.first_nt_repetition_counter +
                (if st.first_nt_counter + 1 > 1 ∧ st.old_nt_first = r.nt_first
                 then 1 else 0),
              old_nt_first := r.nt_first,
              need_first_auth := (reset || hardreset) }
        if addauth then
          if r.addauthOk = false then none
          else some
            { st1 with
                nt := r.addauthNt,
                first_and_nested_nt_repetition_counter :=
                  st1.first_and_nested_nt_repetition_counter +
                    (if r.addauthNt = st1.nt_first then 1 else 0) }
        else some st1
    else some st
  match phase1 with
  | none => none
  | some st2 =>
    let ntv := if r.nestedOk then r.nt else 0
    let ntencv := if r.nestedOk then r.ntenc else 0
    some
      { st2 with
          need_first_auth := if r.nestedOk then st2.need_first_auth else true,
          nt := ntv,
          ntenc := ntencv,
          nested_nt_session_counter := st2.nested_nt_session_counter + 1,
          first_and_nested_nt_repetition_counter :=
            st2.first_and_nested_nt_repetition_counter +
              (if ntv = st2.nt_first then 1 else 0),
          nested_nt_repetition_counter := st2.nested_nt_repetition_counter +
            (if st2.nested_nt_session_counter + 1 > 1 ∧ st2.oldntenc = ntencv
             then 1 else 0),
          oldntenc := ntencv }

/-- The `for (i = 0; i < nr_nested; i++)` probing loop
(mifarecmd.c:3295-3389). -/
def encLoop (reset hardreset addauth : Bool) :
    List EncRound → EncSt → Option EncSt
  | [], st => some st
  | r :: rest, st =>
    match encStep reset hardreset addauth r st with
    | none => none
    | some st2 => encLoop reset hardreset addauth rest st2

/-- The verdict chain of mifarecmd.c:3397-3434: super-static over static
over static-encrypted over normal. -/
def classifyStaticEnc (st : EncSt) : NonceVerdict :=
  if st.first_and_nested_nt_repetition_counter ≠ 0 then .superStatic
  else if st.first_nt_repetition_counter ≠ 0 then .static
  else if st.nested_nt_repetition_counter ≠ 0 then .staticEnc
  else .normal

/-- `MifareHasStaticEncryptedNonce` on the `nr_nested ≥ 1` path
(mifarecmd.c:3293-3441): run the probing rounds, reply `NONCE_FAIL` on an
aborted run, otherwise classify. -/
def mifareHasStaticEncryptedNonce (reset hardreset addauth : Bool)
    (rounds : List EncRound) : NonceVerdict :=
  match encLoop reset hardreset addauth rounds encInit with
  | none => .fail
  | some st => classifyStaticEnc st

/-- C7: the extended classifier assigns its verdict with strict priority
super-static > static > static-encrypted > normal over the counters
accumulated by the probing loop; in particular any completed run whose
super-static counter is nonzero — e.g. one in which first-auth nonces also
repeat — is reported super-static, never static or static-encrypted. -/
theorem static_enc_classifier_priority (reset hardreset addauth : Bool)
    (rounds : List EncRound) (st : EncSt)
    (hrun : encLoop reset hardreset addauth rounds encInit = some st) :
    (st.first_and_nested_nt_repetition_counter ≠ 0 →
      mifareHasStaticEncryptedNonce reset hardreset addauth rounds = .superStatic) ∧
    (st.first_and_nested_nt_repetition_counter = 0 →
      st.first_nt_repetition_counter ≠ 0 →
      mifareHasStaticEncryptedNonce reset hardreset addauth rounds = .static) ∧
    (st.first_and_nested_nt_repetition_counter = 0 →
      st.first_nt_repetition_counter = 0 →
      st.nested_nt_repetition_counter ≠ 0 →
      mifareHasStaticEncryptedNonce reset hardreset addauth rounds = .staticEnc) ∧
    (st.first_and_nested_nt_repetition_counter = 0 →
      st.first_nt_repetition_counter = 0 →
      st.nested_nt_repetition_counter = 0 →
      mifareHasStaticEncryptedNonce reset hardreset addauth rounds = .normal) := by
  have hm : mifareHasStaticEncryptedNonce reset hardreset addauth rounds =
      classifyStaticEnc st := by
    unfold mifareHasStaticEncryptedNonce
    rw [hrun]
  refine ⟨?_, ?_, ?_, ?_⟩
  · intro h; rw [hm]; unfold classifyStaticEnc; rw [if_pos h]
  · intro h0 h; rw [hm]; unfold classifyStaticEnc
    rw [if_neg (by simp [h0]), if_pos h]
  · intro h0 h1 h; rw [hm]; unfold classifyStaticEnc
    rw [if_neg (by simp [h0]), if_neg (by simp [h1]), if_pos h]
  · intro h0 h1 h2; rw [hm]; unfold classifyStaticEnc
    rw [if_neg (by simp [h0]), if_neg (by simp [h1]), if_neg (by simp [h2])]

/-- C7 witness: two probing rounds with `reset` set, identical first-auth
nonces, and nested nonces equal to the first nonce: first-auth nonces
repeat AND the super-static counter is nonzero; the verdict is
super-static. -/
theorem static_enc_classifier_priority_witness :
    mifareHasStaticEncryptedNonce true false false
      (List.replicate 2 ⟨true, 9, true, 0, true, 9, 3⟩) = .superStatic := by
  have hrun : encLoop true false false
      (List.replicate 2 ⟨true, 9, true, 0, true, 9, 3⟩) encInit =
      some ((encLoop true false false
        (List.replicate 2 ⟨true, 9, true, 0, true, 9, 3⟩) encInit).getD encInit) := by
    decide
  have h := static_enc_classifier_priority true false false
    (List.replicate 2 ⟨true, 9, true, 0, true, 9, 3⟩)
    ((encLoop true false false
      (List.replicate 2 ⟨true, 9, true, 0, true, 9, 3⟩) encInit).getD encInit)
    hrun
  exact h.1 (by decide)

/-! ## Key search engine (`MifareChkKeys_fast` and helpers,
mifarecmd.c:1723-2298).

The tag is a deterministic model: `auth block keyType key` returns the
`chkKey` result code of a successful fast-select probe (0 = auth success,
4 reserved for select failure which the model drives through
`fastSelectOk`), `readb block keyA` the key B recovered by the
sector-trailer read of `chkKey_readb` (`none` when the read fails or
yields zeros). `selectOk` is the full `iso14443a_select_card` of the first
chunk. The flash-dictionary path (`use_flashmem`) and the single-sector
mode are outside this model. -/

/-- Deterministic tag model for the key search engine. -/
structure TagModel where
  selectOk : Bool
  fastSelectOk : Bool
  auth : Nat → Nat → Nat → Nat
  readb : Nat → Nat → Option Nat

/-- Modelled from the spec: the external helper `FirstBlockOfSector`
(standard MIFARE Classic layout, consistent with the sector-trailer
computation at mifarecmd.c:2274-2279). -/
def FirstBlockOfSector (s : Nat) : Nat :=
  if s < 32 then s * 4 else 32 * 4 + (s - 32) * 16

/-- Modelled from the spec: the external helper `NumBlocksPerSector`
(standard MIFARE Classic layout). -/
def NumBlocksPerSector (s : Nat) : Nat :=
  if s < 32 then 4 else 16

/-- The sector trailer block probed by `chkKey_loopBonly`
(mifarecmd.c:1863). -/
def trailerBlockOfSector (s : Nat) : Nat :=
  FirstBlockOfSector s + NumBlocksPerSector s - 1

/-- `chkKey` (mifarecmd.c:1747-1772): five fast-select attempts (collapsed
to the deterministic `fastSelectOk`), then one authentication; 4 on select
failure. -/
def chkKey (tag : TagModel) (block keyType key : Nat) : Nat :=
  if tag.fastSelectOk then tag.auth block keyType key else 4

/-- The persistent search state (mifarecmd.c:1913-1918): the
`SectorKeyRecord` table `k_sector` (key A/key B per sector), the `found`
flag array (index `2*s + t`), and `foundkeys`. -/
structure ChkState where
  keyA : Nat → Nat
  keyB : Nat → Nat
  found : Nat → Bool
  foundkeys : Nat

/-- The zeroed state installed by a first chunk (mifarecmd.c:1971-1973). -/
def emptyChkState : ChkState :=
  { keyA := fun _ => 0, keyB := fun _ => 0, found := fun _ => false,
    foundkeys := 0 }

/-- Record a found key A for sector `s`: write the table entry, set
`found[2*s]`, bump `foundkeys`. -/
def recordA (st : ChkState) (s key : Nat) : ChkState :=
  { st with keyA := fun x => if x = s then key else st.keyA x,
            found := fun x => if x = 2 * s then true else st.found x,
            foundkeys := st.foundkeys + 1 }

/-- Record a found key B for sector `s`. -/
def recordB (st : ChkState) (s key : Nat) : ChkState :=
  { st with keyB := fun x => if x = s then key else st.keyB x,
            found := fun x => if x = 2 * s + 1 then true else st.found x,
            foundkeys := st.foundkeys + 1 }

/-- The sector loop of `chkKey_scanA` (mifarecmd.c:1800-1824): skip
sectors with key A found, probe with key type A, stop on select failure,
record hits. `rem` is the number of sectors left. -/
def scanAGo (tag : TagModel) (key : Nat) : Nat → Nat → ChkState → ChkState
  | 0, _, st => st
  | rem + 1, s, st =>
    if st.found (2 * s) then scanAGo tag key rem (s + 1) st
    else
      let res := chkKey tag (FirstBlockOfSector s) 0 key
      if res = 4 then st
      else if res = 0 then scanAGo tag key rem (s + 1) (recordA st s key)
      else scanAGo tag key rem (s + 1) st

/-- `chkKey_scanA` (mifarecmd.c:1800-1824). -/
def chkKey_scanA (tag : TagModel) (key sectorcnt : Nat) (st : ChkState) :
    ChkState :=
  scanAGo tag key sectorcnt 0 st

/-- The sector loop of `chkKey_scanB` (mifarecmd.c:1826-1850). -/
def scanBGo (tag : TagModel) (key : Nat) : Nat → Nat → ChkState → ChkState
  | 0, _, st => st
  | rem + 1, s, st =>
    if st.found (2 * s + 1) then scanBGo tag key rem (s + 1) st
    else
      let res := chkKey tag (FirstBlockOfSector s) 1 key
      if res = 4 then st
      else if res = 0 then scanBGo tag key rem (s + 1) (recordB st s key)
      else scanBGo tag key rem (s + 1) st

/-- `chkKey_scanB` (mifarecmd.c:1826-1850). -/
def chkKey_scanB (tag : TagModel) (key sectorcnt : Nat) (st : ChkState) :
    ChkState :=
  scanBGo tag key sectorcnt 0 st

/-- The sector loop of `chkKey_loopBonly` (mifarecmd.c:1854-1883): for
each sector with key A found but key B not, set the probe key to that
key A, attempt the trailer read; on success record key B, then re-scan all
B keys with it. Threads the `chk_t.key` field (second component), which
the C code leaves clobbered after the call. -/
def loopBGo (tag : TagModel) (sectorcnt : Nat) :
    Nat → Nat → ChkState → Nat → ChkState × Nat
  | 0, _, st, k => (st, k)
  | rem + 1, s, st, k =>
    if st.found (2 * s) && st.found (2 * s + 1) then
      loopBGo tag sectorcnt rem (s + 1) st k
    else if st.found (2 * s) && !st.found (2 * s + 1) then
      let kA := st.keyA s
      match tag.readb (trailerBlockOfSector s) kA with
      | some kb =>
        let st1 := recordB st s kb
        let st2 := chkKey_scanB tag kb sectorcnt st1
        loopBGo tag sectorcnt rem (s + 1) st2 kb
      | none => loopBGo tag sectorcnt rem (s + 1) st kA
    else loopBGo tag sectorcnt rem (s + 1) st k

/-- `chkKey_loopBonly` (mifarecmd.c:1854-1883); returns the state and the
final value of `chk_t.key`. -/
def chkKey_loopBonly (tag : TagModel) (sectorcnt : Nat) (st : ChkState)
    (key : Nat) : ChkState × Nat :=
  loopBGo tag sectorcnt sectorcnt 0 st key

/-- The key-type-A probe of one strategy-1 inner iteration
(mifarecmd.c:2079-2115): guarded by `!found[2s]`; on success record the
datain key, opportunistic `chkKey_scanA`, `chkKey_loopBonly` (which may
clobber `chk_data.key`), then a `chkKey_scanB` with the clobbered key.
`none` models the `goto OUT` on select failure. Returns the state and the
current `chk_data.key`. -/
def s1AProbe (tag : TagModel) (sectorcnt s key : Nat) (st : ChkState) :
    Option (ChkState × Nat) :=
  if !st.found (2 * s) then
    let res := chkKey tag (FirstBlockOfSector s) 0 key
    if res = 4 then none
    else if res = 0 then
      let stA := recordA st s key
      let stB := chkKey_scanA tag key sectorcnt stA
      let p := chkKey_loopBonly tag sectorcnt stB key
      some (chkKey_scanB tag p.2 sectorcnt p.1, p.2)
    else some (st, key)
  else some (st, key)

/-- The key-type-B probe of one strategy-1 inner iteration
(mifarecmd.c:2117-2145): probes with the (possibly clobbered)
`chk_data.key` but records the datain key into the table. -/
def s1BProbe (tag : TagModel) (sectorcnt s keyDatain cur : Nat)
    (st : ChkState) : Option ChkState :=
  if !st.found (2 * s + 1) then
    let res := chkKey tag (FirstBlockOfSector s) 1 cur
    if res = 4 then none
    else if res = 0 then
      some (chkKey_scanB tag cur sectorcnt (recordB st s keyDatain))
    else some st
  else some st

/-- The strategy-1 inner key loop for one sector (mifarecmd.c:2058-2151):
`foundkeys == allkeys` exit, A probe, B probe, break when the sector is
solved. The Bool result is the `goto OUT` flag. -/
def s1KeyGo (tag : TagModel) (sectorcnt allkeys s : Nat) :
    List Nat → ChkState → ChkState × Bool
  | [], st => (st, false)
  | key :: rest, st =>
    if st.foundkeys = allkeys then (st, true)
    else
      match s1AProbe tag sectorcnt s key st with
      | none => (st, true)
      | some p =>
        match s1BProbe tag sectorcnt s key p.2 p.1 with
        | none => (p.1, true)
        | some st2 =>
          if st2.found (2 * s) && st2.found (2 * s + 1) then (st2, false)
          else s1KeyGo tag sectorcnt allkeys s rest st2

/-- The strategy-1 sector loop (mifarecmd.c:2052-2158): skip solved
sectors (bypassing the progress check, as `continue` does), run the key
loop, `goto OUT` on its exit flag or when the chunk made no progress since
the strategy started (`newfound - foundkeys == 0`). -/
def s1SectorGo (tag : TagModel) (keys : List Nat)
    (sectorcnt allkeys newfound : Nat) : Nat → Nat → ChkState → ChkState
  | 0, _, st => st
  | rem + 1, s, st =>
    if st.found (2 * s) && st.found (2 * s + 1) then
      s1SectorGo tag keys sectorcnt allkeys newfound rem (s + 1) st
    else
      let p := s1KeyGo tag sectorcnt allkeys s keys st
      if p.2 then p.1
      else if p.1.foundkeys = newfound then p.1
      else s1SectorGo tag keys sectorcnt allkeys newfound rem (s + 1) p.1

/-- Strategy 1 (depth-first per sector, mifarecmd.c:2044-2159), without
the flash-dictionary `s_point`/`lastpos` bookkeeping (inactive when
`use_flashmem` is 0). -/
def strategy1 (tag : TagModel) (keys : List Nat) (sectorcnt allkeys : Nat)
    (st : ChkState) : ChkState :=
  s1SectorGo tag keys sectorcnt allkeys st.foundkeys sectorcnt 0 st

/-- The key-type-A probe of one strategy-2 sector iteration
(mifarecmd.c:2202-2218): probes with the carried `chk_data.key`, records
the datain key, opportunistic scan A and `loopBonly` (no select-failure
exit in strategy 2). -/
def s2AProbe (tag : TagModel) (sectorcnt s keyDatain cur : Nat)
    (st : ChkState) : ChkState × Nat :=
  if !st.found (2 * s) then
    let res := chkKey tag (FirstBlockOfSector s) 0 cur
    if res = 0 then
      let stA := recordA st s keyDatain
      let stB := chkKey_scanA tag cur sectorcnt stA
      chkKey_loopBonly tag sectorcnt stB cur
    else (st, cur)
  else (st, cur)

/-- The strategy-2 sector loop for one key (mifarecmd.c:2187-2233):
skip solved sectors, `foundkeys == allkeys` exit, A probe then B probe
(probing with the carried key, recording the datain key). -/
def s2SectorGo (tag : TagModel) (allkeys keyDatain sectorcnt : Nat) :
    Nat → Nat → ChkState → Nat → ChkState × Nat × Bool
  | 0, _, st, cur => (st, cur, false)
  | rem + 1, s, st, cur =>
    if st.found (2 * s) && st.found (2 * s + 1) then
      s2SectorGo tag allkeys keyDatain sectorcnt rem (s + 1) st cur
    else if st.foundkeys = allkeys then (st, cur, true)
    else
      let p := s2AProbe tag sectorcnt s keyDatain cur st
      let q : ChkState :=
        if !p.1.found (2 * s + 1) then
          let res := chkKey tag (FirstBlockOfSector s) 1 p.2
          if res = 0 then chkKey_scanB tag p.2 sectorcnt (recordB p.1 s keyDatain)
          else p.1
        else p.1
      s2SectorGo tag allkeys keyDatain sectorcnt rem (s + 1) q p.2

/-- The strategy-2 key loop (mifarecmd.c:2168-2234). -/
def s2KeyGo (tag : TagModel) (sectorcnt allkeys : Nat) :
    List Nat → ChkState → ChkState
  | [], st => st
  | key :: rest, st =>
    if st.foundkeys = allkeys then st
    else
      let p := s2SectorGo tag allkeys key sectorcnt sectorcnt 0 st key
      if p.2.2 then p.1 else s2KeyGo tag sectorcnt allkeys rest p.1

/-- Strategy 2 (breadth-first per key, mifarecmd.c:2165-2235). -/
def strategy2 (tag : TagModel) (keys : List Nat) (sectorcnt allkeys : Nat)
    (st : ChkState) : ChkState :=
  s2KeyGo tag sectorcnt allkeys keys st

/-- Outcome of one `MifareChkKeys_fast` chunk: final persistent state plus
the cleanup facts of the `OUT` path (mifarecmd.c:2236-2297):
`crypto1_deinit` always runs; the RF field is turned off only when all
keys are found or this chunk was flagged last. -/
structure ChkResult where
  st : ChkState
  fieldOn : Bool
  cipherReleased : Bool
  selectFailed : Bool

/-- `MifareChkKeys_fast` (mifarecmd.c:1891-2298), non-flash multi-sector
path: a first chunk resets the persistent state and selects the card
(select failure goes straight to `OUT`); then exactly one of the two
strategies runs (`use_flashmem` is 0); at `OUT` the cipher state is
released and the field is switched off only if `foundkeys == allkeys` or
`lastchunk`. -/
def mifareChkKeys_fast (tag : TagModel) (keys : List Nat)
    (sectorcnt strategy : Nat) (firstchunk lastchunk : Bool)
    (st0 : ChkState) : ChkResult :=
  let allkeys := (2 * sectorcnt) % 256
  if firstchunk && !tag.selectOk then
    { st := emptyChkState,
      fieldOn := !(decide (emptyChkState.foundkeys = allkeys) || lastchunk),
      cipherReleased := true, selectFailed := true }
  else
    let stInit := if firstchunk then emptyChkState else st0
    let st1 :=
      if strategy = 1 then strategy1 tag keys sectorcnt allkeys stInit
      else if strategy = 2 then strategy2 tag keys sectorcnt allkeys stInit
      else stInit
    { st := st1,
      fieldOn := !(decide (st1.foundkeys = allkeys) || lastchunk),
      cipherReleased := true, selectFailed := false }

/-! ## C3: the SectorKeyRecord table is set-once. -/

/-- The table entry guarded by `found[idx]`: key A of sector `idx/2` for
even `idx`, key B for odd `idx`. -/
def keyAt (st : ChkState) (idx : Nat) : Nat :=
  if idx % 2 = 0 then st.keyA (idx / 2) else st.keyB (idx / 2)

/-- Set-once preservation: every `found` flag set in `st` is still set in
`st'` and the table entry it guards is unchanged. -/
def PreservesFound (st st' : ChkState) : Prop :=
  ∀ idx, st.found idx = true →
    st'.found idx = true ∧ keyAt st' idx = keyAt st idx

theorem preservesFound_rfl (st : ChkState) : PreservesFound st st :=
  fun _ h => ⟨h, rfl⟩

theorem preservesFound_trans {a b c : ChkState}
    (h1 : PreservesFound a b) (h2 : PreservesFound b c) :
    PreservesFound a c := by
  intro idx hidx
  obtain ⟨hf1, hk1⟩ := h1 idx hidx
  obtain ⟨hf2, hk2⟩ := h2 idx hf1
  exact ⟨hf2, by rw [hk2, hk1]⟩

theorem recordA_preserves (st : ChkState) (s key : Nat)
    (h : st.found (2 * s) = false) : PreservesFound st (recordA st s key) := by
  intro idx hidx
  have hne : idx ≠ 2 * s := by
    intro he; rw [he, h] at hidx; exact absurd hidx (by simp)
  constructor
  · simp only [recordA]
    rw [if_neg hne]
    exact hidx
  · unfold keyAt
    by_cases hpar : idx % 2 = 0
    · rw [if_pos hpar, if_pos hpar]
      simp only [recordA]
      rw [if_neg (by omega)]
    · rw [if_neg hpar, if_neg hpar]
      rfl

theorem recordB_preserves (st : ChkState) (s key : Nat)
    (h : st.found (2 * s + 1) = false) :
    PreservesFound st (recordB st s key) := by
  intro idx hidx
  have hne : idx ≠ 2 * s + 1 := by
    intro he; rw [he, h] at hidx; exact absurd hidx (by simp)
  constructor
  · simp only [recordB]
    rw [if_neg hne]
    exact hidx
  · unfold keyAt
    by_cases hpar : idx % 2 = 0
    · rw [if_pos hpar, if_pos hpar]
      rfl
    · rw [if_neg hpar, if_neg hpar]
      simp only [recordB]
      rw [if_neg (by omega)]

theorem scanAGo_preserves (tag : TagModel) (key : Nat) :
    ∀ (rem s : Nat) (st : ChkState),
      PreservesFound st (scanAGo tag key rem s st) := by
  intro rem
  induction rem with
  | zero => intro s st; exact preservesFound_rfl st
  | succ r ih =>
    intro s st
    simp only [scanAGo]
    by_cases hf : st.found (2 * s) = true
    · rw [if_pos hf]; exact ih (s + 1) st
    · rw [if_neg hf]
      by_cases h4 : chkKey tag (FirstBlockOfSector s) 0 key = 4
      · rw [if_pos h4]; exact preservesFound_rfl st
      · rw [if_neg h4]
        by_cases h0 : chkKey tag (FirstBlockOfSector s) 0 key = 0
        · rw [if_pos h0]
          exact preservesFound_trans
            (recordA_preserves st s key (Bool.not_eq_true _ ▸ hf)) (ih (s + 1) _)
        · rw [if_neg h0]; exact ih (s + 1) st

theorem scanBGo_preserves (tag : TagModel) (key : Nat) :
    ∀ (rem s : Nat) (st : ChkState),
      PreservesFound st (scanBGo tag key rem s st) := by
  intro rem
  induction rem with
  | zero => intro s st; exact preservesFound_rfl st
  | succ r ih =>
    intro s st
    simp only [scanBGo]
    by_cases hf : st.found (2 * s + 1) = true
    · rw [if_pos hf]; exact ih (s + 1) st
    · rw [if_neg hf]
      by_cases h4 : chkKey tag (FirstBlockOfSector s) 1 key = 4
      · rw [if_pos h4]; exact preservesFound_rfl st
      · rw [if_neg h4]
        by_cases h0 : chkKey tag (FirstBlockOfSector s) 1 key = 0
        · rw [if_pos h0]
          exact preservesFound_trans
            (recordB_preserves st s key (Bool.not_eq_true _ ▸ hf)) (ih (s + 1) _)
        · rw [if_neg h0]; exact ih (s + 1) st

theorem chkKey_scanA_preserves (tag : TagModel) (key sectorcnt : Nat)
    (st : ChkState) : PreservesFound st (chkKey_scanA tag key sectorcnt st) :=
  scanAGo_preserves tag key sectorcnt 0 st

theorem chkKey_scanB_preserves (tag : TagModel) (key sectorcnt : Nat)
    (st : ChkState) : PreservesFound st (chkKey_scanB tag key sectorcnt st) :=
  scanBGo_preserves tag key sectorcnt 0 st

theorem loopBGo_preserves (tag : TagModel) (sectorcnt : Nat) :
    ∀ (rem s : Nat) (st : ChkState) (k : Nat),
      PreservesFound st (loopBGo tag sectorcnt rem s st k).1 := by
  intro rem
  induction rem with
  | zero => intro s st k; exact preservesFound_rfl st
  | succ r ih =>
    intro s st k
    simp only [loopBGo]
    by_cases hab : (st.found (2 * s) && st.found (2 * s + 1)) = true
    · rw [if_pos hab]; exact ih (s + 1) st k
    · rw [if_neg hab]
      by_cases hanb : (st.found (2 * s) && !st.found (2 * s + 1)) = true
      · rw [if_pos hanb]
        have hbf : st.found (2 * s + 1) = false := by
          have h2 : st.found (2 * s) = true ∧ (!st.found (2 * s + 1)) = true := by
            simpa using hanb
          simpa using h2.2
        cases hr : tag.readb (trailerBlockOfSector s) (st.keyA s) with
        | some kb =>
          exact preservesFound_trans (recordB_preserves st s kb hbf)
            (preservesFound_trans (chkKey_scanB_preserves tag kb sectorcnt _)
              (ih (s + 1) _ kb))
        | none => exact ih (s + 1) st (st.keyA s)
      · rw [if_neg hanb]; exact ih (s + 1) st k

theorem chkKey_loopBonly_preserves (tag : TagModel) (sectorcnt : Nat)
    (st : ChkState) (key : Nat) :
    PreservesFound st (chkKey_loopBonly tag sectorcnt st key).1 :=
  loopBGo_preserves tag sectorcnt sectorcnt 0 st key

theorem s1AProbe_preserves (tag : TagModel) (sectorcnt s key : Nat)
    (st : ChkState) (p : ChkState × Nat)
    (hp : s1AProbe tag sectorcnt s key st = some p) :
    PreservesFound st p.1 := by
  unfold s1AProbe at hp
  by_cases hf : st.found (2 * s) = true
  · rw [if_neg (by simp [hf])] at hp
    obtain rfl : (st, key) = p := by simpa using hp
    exact preservesFound_rfl st
  · rw [if_pos (by simp [hf])] at hp
    by_cases h4 : chkKey tag (FirstBlockOfSector s) 0 key = 4
    · rw [if_pos h4] at hp; exact absurd hp (by simp)
    · rw [if_neg h4] at hp
      by_cases h0 : chkKey tag (FirstBlockOfSector s) 0 key = 0
      · rw [if_pos h0] at hp
        obtain rfl : _ = p := by simpa using hp
        exact preservesFound_trans
          (recordA_preserves st s key (Bool.not_eq_true _ ▸ hf))
          (preservesFound_trans (chkKey_scanA_preserves tag key sectorcnt _)
            (preservesFound_trans (chkKey_loopBonly_preserves tag sectorcnt _ key)
              (chkKey_scanB_preserves tag _ sectorcnt _)))
      · rw [if_neg h0] at hp
        obtain rfl : (st, key) = p := by simpa using hp
        exact preservesFound_rfl st

theorem s1BProbe_preserves (tag : TagModel) (sectorcnt s keyDatain cur : Nat)
    (st : ChkState) (st2 : ChkState)
    (hp : s1BProbe tag sectorcnt s keyDatain cur st = some st2) :
    PreservesFound st st2 := by
  unfold s1BProbe at hp
  by_cases hf : st.found (2 * s + 1) = true
  · rw [if_neg (by simp [hf])] at hp
    obtain rfl : st = st2 := by simpa using hp
    exact preservesFound_rfl st
  · rw [if_pos (by simp [hf])] at hp
    by_cases h4 : chkKey tag (FirstBlockOfSector s) 1 cur = 4
    · rw [if_pos h4] at hp; exact absurd hp (by simp)
    · rw [if_neg h4] at hp
      by_cases h0 : chkKey tag (FirstBlockOfSector s) 1 cur = 0
      · rw [if_pos h0] at hp
        obtain rfl : _ = st2 := by simpa using hp
        exact preservesFound_trans
          (recordB_preserves st s keyDatain (Bool.not_eq_true _ ▸ hf))
          (chkKey_scanB_preserves tag cur sectorcnt _)
      · rw [if_neg h0] at hp
        obtain rfl : st = st2 := by simpa using hp
        exact preservesFound_rfl st

theorem s1KeyGo_preserves (tag : TagModel) (sectorcnt allkeys s : Nat) :
    ∀ (keys : List Nat) (st : ChkState),
      PreservesFound st (s1KeyGo tag sectorcnt allkeys s keys st).1 := by
  intro keys
  induction keys with
  | nil => intro st; exact preservesFound_rfl st
  | cons key rest ih =>
    intro st
    simp only [s1KeyGo]
    by_cases hall : st.foundkeys = allkeys
    · rw [if_pos hall]; exact preservesFound_rfl st
    · rw [if_neg hall]
      split
      · exact preservesFound_rfl st
      · rename_i p hA
        have hPA := s1AProbe_preserves tag sectorcnt s key st p hA
        split
        · exact hPA
        · rename_i st2 hB
          have hPB := s1BProbe_preserves tag sectorcnt s key p.2 p.1 st2 hB
          split
          · exact preservesFound_trans hPA hPB
          · exact preservesFound_trans (preservesFound_trans hPA hPB) (ih st2)

theorem s1SectorGo_preserves (tag : TagModel) (keys : List Nat)
    (sectorcnt allkeys newfound : Nat) :
    ∀ (rem s : Nat) (st : ChkState),
      PreservesFound st
        (s1SectorGo tag keys sectorcnt allkeys newfound rem s st) := by
  intro rem
  induction rem with
  | zero => intro s st; exact preservesFound_rfl st
  | succ r ih =>
    intro s st
    simp only [s1SectorGo]
    by_cases hab : (st.found (2 * s) && st.found (2 * s + 1)) = true
    · rw [if_pos hab]; exact ih (s + 1) st
    · rw [if_neg hab]
      have hP := s1KeyGo_preserves tag sectorcnt allkeys s keys st
      by_cases hout : (s1KeyGo tag sectorcnt allkeys s keys st).2 = true
      · rw [if_pos hout]; exact hP
      · rw [if_neg hout]
        by_cases hprog :
            (s1KeyGo tag sectorcnt allkeys s keys st).1.foundkeys = newfound
        · rw [if_pos hprog]; exact hP
        · rw [if_neg hprog]
          exact preservesFound_trans hP (ih (s + 1) _)

theorem strategy1_preserves (tag : TagModel) (keys : List Nat)
    (sectorcnt allkeys : Nat) (st : ChkState) :
    PreservesFound st (strategy1 tag keys sectorcnt allkeys st) :=
  s1SectorGo_preserves tag keys sectorcnt allkeys st.foundkeys sectorcnt 0 st

theorem s2AProbe_preserves (tag : TagModel) (sectorcnt s keyDatain cur : Nat)
    (st : ChkState) :
    PreservesFound st (s2AProbe tag sectorcnt s keyDatain cur st).1 := by
  unfold s2AProbe
  by_cases hf : st.found (2 * s) = true
  · rw [if_neg (by simp [hf])]; exact preservesFound_rfl st
  · rw [if_pos (by simp [hf])]
    by_cases h0 : chkKey tag (FirstBlockOfSector s) 0 cur = 0
    · rw [if_pos h0]
      exact preservesFound_trans
        (recordA_preserves st s keyDatain (Bool.not_eq_true _ ▸ hf))
        (preservesFound_trans (chkKey_scanA_preserves tag cur sectorcnt _)
          (chkKey_loopBonly_preserves tag sectorcnt _ cur))
    · rw [if_neg h0]; exact preservesFound_rfl st

theorem s2SectorGo_preserves (tag : TagModel) (allkeys keyDatain sectorcnt : Nat) :
    ∀ (rem s : Nat) (st : ChkState) (cur : Nat),
      PreservesFound st
        (s2SectorGo tag allkeys keyDatain sectorcnt rem s st cur).1 := by
  intro rem
  induction rem with
  | zero => intro s st cur; exact preservesFound_rfl st
  | succ r ih =>
    intro s st cur
    simp only [s2SectorGo]
    by_cases hab : (st.found (2 * s) && st.found (2 * s + 1)) = true
    · rw [if_pos hab]; exact ih (s + 1) st cur
    · rw [if_neg hab]
      by_cases hall : st.foundkeys = allkeys
      · rw [if_pos hall]; exact preservesFound_rfl st
      · rw [if_neg hall]
        have hPA := s2AProbe_preserves tag sectorcnt s keyDatain cur st
        set p := s2AProbe tag sectorcnt s keyDatain cur st with hpdef
        have hPQ : PreservesFound p.1
            (if !p.1.found (2 * s + 1) then
              if chkKey tag (FirstBlockOfSector s) 1 p.2 = 0 then
                chkKey_scanB tag p.2 sectorcnt (recordB p.1 s keyDatain)
              else p.1
             else p.1) := by
          by_cases hbf : p.1.found (2 * s + 1) = true
          · rw [if_neg (by simp [hbf])]; exact preservesFound_rfl p.1
          · rw [if_pos (by simp [hbf])]
            by_cases h0 : chkKey tag (FirstBlockOfSector s) 1 p.2 = 0
            · rw [if_pos h0]
              exact preservesFound_trans
                (recordB_preserves p.1 s keyDatain (Bool.not_eq_true _ ▸ hbf))
                (chkKey_scanB_preserves tag p.2 sectorcnt _)
            · rw [if_neg h0]; exact preservesFound_rfl p.1
        exact preservesFound_trans (preservesFound_trans hPA hPQ) (ih (s + 1) _ p.2)

theorem s2KeyGo_preserves (tag : TagModel) (sectorcnt allkeys : Nat) :
    ∀ (keys : List Nat) (st : ChkState),
      PreservesFound st (s2KeyGo tag sectorcnt allkeys keys st) := by
  intro keys
  induction keys with
  | nil => intro st; exact preservesFound_rfl st
  | cons key rest ih =>
    intro st
    simp only [s2KeyGo]
    by_cases hall : st.foundkeys = allkeys
    · rw [if_pos hall]; exact preservesFound_rfl st
    · rw [if_neg hall]
      have hP := s2SectorGo_preserves tag allkeys key sectorcnt sectorcnt 0 st key
      by_cases hout :
          (s2SectorGo tag allkeys key sectorcnt sectorcnt 0 st key).2.2 = true
      · rw [if_pos hout]; exact hP
      · rw [if_neg hout]
        exact preservesFound_trans hP (ih _)

theorem strategy2_preserves (tag : TagModel) (keys : List Nat)
    (sectorcnt allkeys : Nat) (st : ChkState) :
    PreservesFound st (strategy2 tag keys sectorcnt allkeys st) :=
  s2KeyGo_preserves tag sectorcnt allkeys keys st

/-- C3: every component of the key search engine — the opportunistic key A
and key B re-scans, the trailer-read loop, both strategies, and a
non-first chunk of `MifareChkKeys_fast` — preserves every already-set
`found` flag and never overwrites the `SectorKeyRecord` entry it guards:
all table writes are guarded by the corresponding flag being unset. -/
theorem sector_key_record_set_once :
    (∀ (tag : TagModel) (key sectorcnt : Nat) (st : ChkState),
      PreservesFound st (chkKey_scanA tag key sectorcnt st)) ∧
    (∀ (tag : TagModel) (key sectorcnt : Nat) (st : ChkState),
      PreservesFound st (chkKey_scanB tag key sectorcnt st)) ∧
    (∀ (tag : TagModel) (sectorcnt : Nat) (st : ChkState) (key : Nat),
      PreservesFound st (chkKey_loopBonly tag sectorcnt st key).1) ∧
    (∀ (tag : TagModel) (keys : List Nat) (sectorcnt allkeys : Nat)
        (st : ChkState),
      PreservesFound st (strategy1 tag keys sectorcnt allkeys st)) ∧
    (∀ (tag : TagModel) (keys : List Nat) (sectorcnt allkeys : Nat)
        (st : ChkState),
      PreservesFound st (strategy2 tag keys sectorcnt allkeys st)) ∧
    (∀ (tag : TagModel) (keys : List Nat) (sectorcnt strategy : Nat)
        (lastchunk : Bool) (st0 : ChkState),
      PreservesFound st0
        (mifareChkKeys_fast tag keys sectorcnt strategy false lastchunk st0).st) := by
  refine ⟨chkKey_scanA_preserves, chkKey_scanB_preserves,
    chkKey_loopBonly_preserves, strategy1_preserves, strategy2_preserves, ?_⟩
  intro tag keys sectorcnt strategy lastchunk st0
  unfold mifareChkKeys_fast
  simp only [Bool.false_and, Bool.false_eq_true, if_false, if_neg]
  by_cases h1 : strategy = 1
  · rw [if_pos h1]; exact strategy1_preserves tag keys sectorcnt _ st0
  · rw [if_neg h1]
    by_cases h2 : strategy = 2
    · rw [if_pos h2]; exact strategy2_preserves tag keys sectorcnt _ st0
    · rw [if_neg h2]; exact preservesFound_rfl st0

/-- C3 witness: a non-first chunk run from a state with sector 0's key A
already found keeps the flag and the key value. -/
theorem sector_key_record_set_once_witness :
    (mifareChkKeys_fast
        ⟨true, true, fun _ _ _ => 1, fun _ _ => none⟩ [5] 2 1 false true
        ⟨fun _ => 7, fun _ => 0, fun i => decide (i = 0), 1⟩).st.found 0 = true ∧
    keyAt (mifareChkKeys_fast
        ⟨true, true, fun _ _ _ => 1, fun _ _ => none⟩ [5] 2 1 false true
        ⟨fun _ => 7, fun _ => 0, fun i => decide (i = 0), 1⟩).st 0 =
      keyAt (⟨fun _ => 7, fun _ => 0, fun i => decide (i = 0), 1⟩ : ChkState) 0 :=
  sector_key_record_set_once.2.2.2.2.2
    ⟨true, true, fun _ _ _ => 1, fun _ _ => none⟩ [5] 2 1 true
    ⟨fun _ => 7, fun _ => 0, fun i => decide (i = 0), 1⟩ 0 (by decide)

/-! ## C8: chunking, and C9: cleanup on exit paths. -/

/-- A two-sector tag for the chunking analysis: sector 0 opens with key 2
(type A), sector 1 with key 1 (type A); nothing else authenticates and
trailer reads fail. -/
def cexTag : TagModel :=
  { selectOk := true, fastSelectOk := true,
    auth := fun b t k =>
      if (b = 0 ∧ t = 0 ∧ k = 2) ∨ (b = 4 ∧ t = 0 ∧ k = 1) then 0 else 1,
    readb := fun _ _ => none }

/-- C8 counterexample: on `cexTag` with strategy 1, submitting the key
list `[1, 2]` as one first-and-last chunk finds sector 1's key A (flag
`found[2]`), but splitting it into chunks `[1]` (first) and `[2]` (last)
does not — the split run's first chunk exits after sector 0 with no
progress, and key 1 is never re-tried once chunk `[2]` has opened
sector 0. The final found bitmaps (and `foundkeys`) differ. -/
theorem chkkeys_chunking_counterexample :
    (mifareChkKeys_fast cexTag [1, 2] 2 1 true true emptyChkState).st.found 2 = true ∧
    (mifareChkKeys_fast cexTag [2] 2 1 false true
      (mifareChkKeys_fast cexTag [1] 2 1 true false emptyChkState).st).st.found 2 = false ∧
    (mifareChkKeys_fast cexTag [1, 2] 2 1 true true emptyChkState).st.foundkeys = 2 ∧
    (mifareChkKeys_fast cexTag [2] 2 1 false true
      (mifareChkKeys_fast cexTag [1] 2 1 true false emptyChkState).st).st.foundkeys = 1 := by
  refine ⟨?_, ?_, ?_, ?_⟩ <;> decide

/-- C8 (amended): the persistent sector/key-record state is re-initialized
exactly on first chunks — a first-chunk call is independent of the carried
state — but splitting one key list into chunks does NOT always produce the
same final `SectorKeyRecord` table: keys of an earlier chunk are not
re-probed in later chunks, so a single-chunk run can solve strictly more
sectors than the same list split in two (witnessed on `cexTag`). -/
theorem chkkeys_first_chunk_reinit_but_chunking_differs :
    (∀ (tag : TagModel) (keys : List Nat) (sectorcnt strategy : Nat)
        (lastchunk : Bool) (st0 st1 : ChkState),
      mifareChkKeys_fast tag keys sectorcnt strategy true lastchunk st0 =
      mifareChkKeys_fast tag keys sectorcnt strategy true lastchunk st1) ∧
    ((mifareChkKeys_fast cexTag [1, 2] 2 1 true true emptyChkState).st.found 2 ≠
      (mifareChkKeys_fast cexTag [2] 2 1 false true
        (mifareChkKeys_fast cexTag [1] 2 1 true false emptyChkState).st).st.found 2) := by
  constructor
  · intro tag keys sectorcnt strategy lastchunk st0 st1
    rfl
  · decide

/-- C9 (amended): on every exit path of the modelled operations the cipher
state is released; `MifareNested` also turns the RF field off on its
single exit path, but a `MifareChkKeys_fast` chunk turns the field off
exactly when all keys are found or the chunk was flagged last — any other
exit, error or not, leaves the field enabled. -/
theorem cleanup_cipher_always_field_conditional :
    (∀ (prng : Nat → Nat) (cal : List CalRound) (harv : List HarvRound)
        (flag : Bool) (d0 d1 d2 : Nat),
      (mifareNested prng cal harv flag d0 d1 d2).cipherReleased = true ∧
      (mifareNested prng cal harv flag d0 d1 d2).fieldOff = true) ∧
    (∀ (tag : TagModel) (keys : List Nat) (sectorcnt strategy : Nat)
        (firstchunk lastchunk : Bool) (st0 : ChkState),
      (mifareChkKeys_fast tag keys sectorcnt strategy firstchunk lastchunk
        st0).cipherReleased = true ∧
      ((mifareChkKeys_fast tag keys sectorcnt strategy firstchunk lastchunk
          st0).fieldOn = false ↔
        ((mifareChkKeys_fast tag keys sectorcnt strategy firstchunk lastchunk
            st0).st.foundkeys = (2 * sectorcnt) % 256 ∨ lastchunk = true))) := by
  constructor
  · intro prng cal harv flag d0 d1 d2
    exact ⟨rfl, rfl⟩
  · intro tag keys sectorcnt strategy firstchunk lastchunk st0
    unfold mifareChkKeys_fast
    by_cases hsel : (firstchunk && !tag.selectOk) = true
    · rw [if_pos hsel]
      refine ⟨rfl, ?_⟩
      simp [emptyChkState]
      tauto
    · rw [if_neg hsel]
      refine ⟨rfl, ?_⟩
      simp
      tauto

/-- C9 counterexample: a select-failure error exit of a first chunk that
is not the last chunk releases the cipher state but leaves the RF field
enabled. -/
theorem cleanup_field_left_on_counterexample :
    (mifareChkKeys_fast ⟨false, true, fun _ _ _ => 1, fun _ _ => none⟩
        [1] 2 1 true false emptyChkState).selectFailed = true ∧
    (mifareChkKeys_fast ⟨false, true, fun _ _ _ => 1, fun _ _ => none⟩
        [1] 2 1 true false emptyChkState).cipherReleased = true ∧
    (mifareChkKeys_fast ⟨false, true, fun _ _ _ => 1, fun _ _ => none⟩
        [1] 2 1 true false emptyChkState).fieldOn = true := by
  refine ⟨?_, ?_, ?_⟩ <;> decide

end Mifarecmd
